import Mathlib

/-!
Verification of the AVL tree implementation in `src/avl_tree.h` (namespace `avl`,
class `tree<Data_t, less>`).  We shallowly embed the tree with `Data_t = Int` and
the default comparison `def_less` (integer `<`).

A tree node stores its data, a cached height (`int __height`), and child links;
the parent back-pointer of the C++ code is represented implicitly by the
tree structure (the code maintains it coherently with the child links), and the
iterator's parent-pointer walk is modelled with an explicit zipper context below.

The upward rebalancing loop `_balance_to_root` re-runs its body on the node that
was rotated into the current slot (after a rotation, `temp->__parent` is the new
subtree root occupying the same slot), so the per-slot processing is a loop; we
model it with an explicit fuel parameter and prove that on well-formed trees the
loop stabilises after at most one rotation, so any fuel at least 2 computes the
same result the C++ loop does.
-/

namespace avl

/-- Error kinds of the header: `data_not_found`, `data_already_exists`, `bad_input`. -/
inductive Err where
  | data_not_found : Err
  | data_already_exists : Err
  | bad_input : Err
deriving DecidableEq

/-- A tree node: left child, data, cached height (`__height`), right child.
`nil` is the null pointer. -/
inductive Node where
  | nil : Node
  | node (l : Node) (k : Int) (h : Int) (r : Node) : Node
deriving DecidableEq

namespace Node

/-- Left child (`__left`); null for the null pointer. -/
def left : Node → Node
  | nil => nil
  | node l _ _ _ => l

/-- Right child (`__right`). -/
def right : Node → Node
  | nil => nil
  | node _ _ _ r => r

/-- Stored data (`__data`); junk 0 for null. -/
def data : Node → Int
  | nil => 0
  | node _ k _ _ => k

/-- Cached height field: `node ? node->__height : -1`, the reading used
throughout the header. -/
def ch : Node → Int
  | nil => -1
  | node _ _ h _ => h

/-- Real (mathematical) height of the structure, `-1` for an absent subtree. -/
def rh : Node → Int
  | nil => -1
  | node l _ _ r => 1 + max (rh l) (rh r)

/-- Number of nodes. -/
def sz : Node → Nat
  | nil => 0
  | node l _ _ r => 1 + sz l + sz r

/-- In-order key sequence (what the ascending iterator yields). -/
def inorder : Node → List Int
  | nil => []
  | node l k _ r => inorder l ++ k :: inorder r

end Node

open Node

/-- `_get_tree_height_from_children`:
`max(left ? 1 + left->height : 0, right ? 1 + right->height : 0)`. -/
def get_tree_height_from_children (l r : Node) : Int :=
  max (if l = nil then 0 else 1 + ch l) (if r = nil then 0 else 1 + ch r)

/-- `_get_balance_factor`: `-1` for null, else
`(left ? left->height : -1) - (right ? right->height : -1)`. -/
def get_balance_factor : Node → Int
  | nil => -1
  | node l _ _ r => (if l = nil then -1 else ch l) - (if r = nil then -1 else ch r)

/-- Set the focused node's height from its children
(the `temp->__height = _get_tree_height_from_children(*temp)` step). -/
def updH : Node → Node
  | nil => nil
  | node l k _ r => node l k (get_tree_height_from_children l r) r

/-- `_rotate_right`: requires a left child, else a no-op.  The rotated-down
node's height is recomputed and stored first, then the new subtree root's is
computed from its children (the left grandchild and the updated node). -/
def rotate_right : Node → Node
  | node (node bl kb _ br) ka _ ar =>
      node bl kb
        (get_tree_height_from_children bl (node br ka (get_tree_height_from_children br ar) ar))
        (node br ka (get_tree_height_from_children br ar) ar)
  | t => t

/-- `_rotate_left`: mirror image. -/
def rotate_left : Node → Node
  | node al ka _ (node bl kb _ br) =>
      node (node al ka (get_tree_height_from_children al bl) bl) kb
        (get_tree_height_from_children (node al ka (get_tree_height_from_children al bl) bl) br)
        br
  | t => t

/-- `_rotate_LL` is a single right rotation (with the same null guards). -/
def rotate_LL (t : Node) : Node := rotate_right t

/-- `_rotate_RR` is a single left rotation. -/
def rotate_RR (t : Node) : Node := rotate_left t

/-- `_rotate_LR`: left-rotate the left child, then right-rotate the node. -/
def rotate_LR : Node → Node
  | nil => nil
  | node l k h r => if l = nil then node l k h r else rotate_right (node (rotate_left l) k h r)

/-- `_rotate_RL`: right-rotate the right child, then left-rotate the node. -/
def rotate_RL : Node → Node
  | nil => nil
  | node l k h r => if r = nil then node l k h r else rotate_left (node l k h (rotate_right r))

/-- Which rebalance `_balance_to_root` selects at the current node, from the
balance factors of the node and its children, in the source's branch order. -/
inductive RKind where
  | LL | LR | RL | RR
deriving DecidableEq

/-- Branch selection of `_balance_to_root`: `curr_bf >= 2 && left_bf >= 0` is LL,
`curr_bf >= 2 && left_bf == -1` is LR, `curr_bf <= -2 && right_bf == 1` is RL,
`curr_bf <= -2 && right_bf <= 0` is RR, otherwise no rotation. -/
def rotKind (t : Node) : Option RKind :=
  if 2 ≤ get_balance_factor t ∧ 0 ≤ get_balance_factor t.left then some RKind.LL
  else if 2 ≤ get_balance_factor t ∧ get_balance_factor t.left = -1 then some RKind.LR
  else if get_balance_factor t ≤ -2 ∧ get_balance_factor t.right = 1 then some RKind.RL
  else if get_balance_factor t ≤ -2 ∧ get_balance_factor t.right ≤ 0 then some RKind.RR
  else none

/-- One dispatch of the selected rotation.  The boolean records whether the
subtree root actually changed (the rotation's null guard passed); only in that
case does the C++ loop re-visit the same slot (`temp = temp->__parent` is then
the rotated-up node). -/
def dispatchB (t : Node) : Node × Bool :=
  match rotKind t with
  | some RKind.LL => (rotate_LL t, decide (t.left ≠ nil))
  | some RKind.LR => (rotate_LR t, decide (t.left ≠ nil))
  | some RKind.RL => (rotate_RL t, decide (t.right ≠ nil))
  | some RKind.RR => (rotate_RR t, decide (t.right ≠ nil))
  | none => (t, false)

/-- The per-slot body of `_balance_to_root`: update the height, dispatch a
rotation, and if the slot's root changed re-run the body on the new root. -/
def balanceSlot : Nat → Node → Node
  | 0, t => t
  | fuel + 1, t =>
      let t1 := updH t
      match dispatchB t1 with
      | (t2, true) => balanceSlot fuel t2
      | (t2, false) => t2

/-- `_insert_aux` combined with its `_balance_to_root` walk: descend along the
comparison path; a non-null slot means the data exists (`none` = return false);
otherwise a fresh node of height 0 is placed and every slot from it to the root
is processed by the rebalancing body. -/
def insert_aux (fuel : Nat) (x : Int) : Node → Option Node
  | nil => some (balanceSlot fuel (node nil x 0 nil))
  | node l k h r =>
      if x < k then (insert_aux fuel x l).map fun l2 => balanceSlot fuel (node l2 k h r)
      else if k < x then (insert_aux fuel x r).map fun r2 => balanceSlot fuel (node l k h r2)
      else none

/-- Removal of the leftmost node of a (non-null) subtree, as `_remove_aux` does
for the in-order successor: the successor is spliced out (replaced by its right
child, with no body run at the spliced slot), and the walk processes every slot
from the successor's parent up through this subtree's root.  Returns the removed
key and the new subtree. -/
def removeLeftmost (fuel : Nat) : Node → Int × Node
  | nil => (0, nil)
  | node nil k _ r => (k, r)
  | node (node a kb hb c) k h r =>
      let p := removeLeftmost fuel (node a kb hb c)
      (p.1, balanceSlot fuel (node p.2 k h r))

/-- `_remove_aux` with its walk: descend by comparisons (`none` = not found);
at the found node, with at most one child splice that child in (walk starts at
the parent), with two children swap in the successor's key, physically delete
the successor, and walk from the successor's parent upward. -/
def remove_aux (fuel : Nat) (x : Int) : Node → Option Node
  | nil => none
  | node l k h r =>
      if x < k then (remove_aux fuel x l).map fun l2 => balanceSlot fuel (node l2 k h r)
      else if k < x then (remove_aux fuel x r).map fun r2 => balanceSlot fuel (node l k h r2)
      else some
        (match l, r with
         | nil, _ => r
         | node a b c d, nil => node a b c d
         | node a b c d, node e f g i =>
             let p := removeLeftmost fuel (node e f g i)
             balanceSlot fuel (node (node a b c d) p.1 h p.2))

/-- `_search_place_aux` viewed as a found/not-found test: whether the slot the
comparison walk stops at is occupied.  This is the locate logic shared by
`insert`, `remove` and `search`. -/
def searchFound (x : Int) : Node → Bool
  | nil => false
  | node l k _ r =>
      if x < k then searchFound x l
      else if k < x then searchFound x r
      else true

/-- `_find_min` / `_get_left_most_node` walk, returning the key (the C++ code
throws `data_not_found` on an empty tree; callers guard non-emptiness). -/
def leftmostKey : Node → Option Int
  | nil => none
  | node l k _ _ => if l = nil then some k else leftmostKey l

/-- `_find_max` walk, returning the key. -/
def rightmostKey : Node → Option Int
  | nil => none
  | node _ k _ r => if r = nil then some k else rightmostKey r

/-- The public container state: root, `__size`, and the cached
`__min_element` / `__max_element` (modelled by their keys). -/
structure Tree where
  root : Node
  size : Nat
  minE : Option Int
  maxE : Option Int
deriving DecidableEq

/-- The default constructor: empty tree. -/
def emptyT : Tree := ⟨nil, 0, none, none⟩

/-- `tree::insert`: on success increment the size and recompute min/max by the
leftmost/rightmost walks, else throw `data_already_exists`. -/
def Tree.insert (t : Tree) (x : Int) : Except Err Tree :=
  match insert_aux (sz t.root + 2) x t.root with
  | some r => Except.ok ⟨r, t.size + 1, leftmostKey r, rightmostKey r⟩
  | none => Except.error Err.data_already_exists

/-- `tree::remove`: on success decrement the size; if the tree became empty
clear min/max, else recompute them; on failure throw `data_not_found`. -/
def Tree.remove (t : Tree) (x : Int) : Except Err Tree :=
  match remove_aux (sz t.root + 2) x t.root with
  | some r =>
      Except.ok ⟨r, t.size - 1,
        if r = nil then none else leftmostKey r,
        if r = nil then none else rightmostKey r⟩
  | none => Except.error Err.data_not_found

/-- The loop of the initializer-list constructor: `_insert_aux` each element in
order; a failed insertion destroys the partial tree and aborts. -/
def treeFromListAux : List Int → Node → Option Node
  | [], acc => some acc
  | x :: xs, acc =>
      match insert_aux (sz acc + 2) x acc with
      | some acc2 => treeFromListAux xs acc2
      | none => none

/-- `tree(std::initializer_list)`: run the insertion loop (a failure throws
`bad_input`), set `__size = list.size()`, then compute min and max;
`_find_min` throws `data_not_found` when the root is null. -/
def treeFromList (l : List Int) : Except Err Tree :=
  match treeFromListAux l nil with
  | none => Except.error Err.bad_input
  | some root =>
      match root with
      | nil => Except.error Err.data_not_found
      | node a b c d =>
          Except.ok ⟨node a b c d, l.length,
            leftmostKey (node a b c d), rightmostKey (node a b c d)⟩

/-- Fuelled core of the merge loop of `unite` (fuel at least the total length
reproduces the loop; one element is consumed per step). -/
def mergeDedupF : Nat → List Int → List Int → List Int
  | _, [], l2 => l2
  | _, x :: xs, [] => x :: xs
  | 0, _ :: _, _ :: _ => []
  | f + 1, x :: xs, y :: ys =>
      if x < y then x :: mergeDedupF f xs (y :: ys)
      else if y < x then y :: mergeDedupF f (x :: xs) ys
      else x :: mergeDedupF f xs ys

/-- The merge loop of `unite`: three-way comparison with `less`, keeping the
element of the first tree on equality, then draining the leftovers. -/
def mergeDedup (l1 l2 : List Int) : List Int :=
  mergeDedupF (l1.length + l2.length) l1 l2

/-- Fuelled structural floor base-2 logarithm (so that concrete trees built by
`unite` evaluate inside the kernel); `log2F f n = Nat.log2 n` whenever
`n ≤ f`. -/
def log2F : Nat → Nat → Nat
  | _, 0 => 0
  | 0, _ + 1 => 0
  | f + 1, n + 1 => if 2 ≤ n + 1 then log2F f ((n + 1) / 2) + 1 else 0

theorem log2F_eq : ∀ (f n : Nat), n ≤ f → log2F f n = Nat.log2 n := by
  intro f
  induction f with
  | zero =>
      intro n hn
      have h0 : n = 0 := by omega
      subst h0
      simp [log2F, Nat.log2]
  | succ f ih =>
      intro n hn
      cases n with
      | zero => simp [log2F, Nat.log2]
      | succ m =>
          rw [log2F]
          rw [Nat.log2]
          by_cases h2 : 2 ≤ m + 1
          · rw [if_pos h2, if_pos h2, ih ((m + 1) / 2) (by omega)]
          · rw [if_neg h2, if_neg h2]

/-- `tree_height` of the builder: `static_cast<size_t>(std::log2(size))`,
the floor base-2 logarithm (at least 1 when `n >= 2`). -/
def tree_height (n : Nat) : Nat := log2F n n

theorem tree_height_eq (n : Nat) : tree_height n = Nat.log2 n :=
  log2F_eq n n (le_refl n)

/-- `tree_leaves = size - (2 << (tree_height - 1)) + 1`, that is
`n - 2^tree_height + 1` (when `n >= 2`, so `tree_height >= 1`). -/
def tree_leaves (n : Nat) : Nat := n - 2 ^ tree_height n + 1

/-- `left_size = (1 << (tree_height-1)) - 1 + min(tree_leaves, 1 << (tree_height-1))`. -/
def left_size (n : Nat) : Nat :=
  2 ^ (tree_height n - 1) - 1 + min (tree_leaves n) (2 ^ (tree_height n - 1))

/-- `_create_almost_full_tree` on the merged array (fuelled recursion; any fuel
at least the list's length reproduces the recursion).  The node at index
`left_size` becomes the root; note the node's cached height is set to the SUM
`(left ? left->height : 0) + (right ? right->height : 0)` of the children's
cached heights, exactly as the source computes `node_height`. -/
def create_almost_full_tree : Nat → List Int → Node
  | _, [] => nil
  | 0, _ :: _ => nil
  | fuel + 1, x :: xs =>
      if (x :: xs).length = 1 then node nil x 0 nil
      else
        node (create_almost_full_tree fuel ((x :: xs).take (left_size (x :: xs).length)))
          ((x :: xs).getD (left_size (x :: xs).length) 0)
          ((if create_almost_full_tree fuel ((x :: xs).take (left_size (x :: xs).length)) = nil
            then 0
            else ch (create_almost_full_tree fuel ((x :: xs).take (left_size (x :: xs).length)))) +
           (if create_almost_full_tree fuel ((x :: xs).drop (left_size (x :: xs).length + 1)) = nil
            then 0
            else ch (create_almost_full_tree fuel ((x :: xs).drop (left_size (x :: xs).length + 1)))))
          (create_almost_full_tree fuel ((x :: xs).drop (left_size (x :: xs).length + 1)))

/-- Wrapper with adequate fuel (every recursive call strictly shrinks the list). -/
def createAlmostFullTree (l : List Int) : Node :=
  create_almost_full_tree l.length l

/-- The copying `unite(const tree&, const tree&)`: if both inputs are empty the
default tree is returned; otherwise the ascending sequences are merged
(deduplicated, first argument wins) and an almost-full tree is built from the
array;  size, min, max are set from the result. -/
def Tree.unite_copy (t1 t2 : Tree) : Tree :=
  if t1.size + t2.size = 0 then ⟨nil, 0, none, none⟩
  else
    let arr := mergeDedup (inorder t1.root) (inorder t2.root)
    let r := createAlmostFullTree arr
    ⟨r, arr.length, leftmostKey r, rightmostKey r⟩

/-! ## Invariants -/

/-- Every cached `__height` field equals the real height of its subtree. -/
def HeightsOk : Node → Prop
  | nil => True
  | node l _ h r => HeightsOk l ∧ HeightsOk r ∧ h = 1 + max (rh l) (rh r)

/-- The AVL balance invariant on real heights. -/
def BalancedT : Node → Prop
  | nil => True
  | node l _ _ r => BalancedT l ∧ BalancedT r ∧ rh l - rh r ≤ 1 ∧ rh r - rh l ≤ 1

/-- The binary-search-tree ordering invariant, stated through the in-order
sequence. -/
def Ordered (t : Node) : Prop := List.Sorted (· < ·) (inorder t)

/-- Decidability of `HeightsOk`. -/
def decHeightsOk : (t : Node) → Decidable (HeightsOk t)
  | nil => Decidable.isTrue trivial
  | node l k h r =>
      letI := decHeightsOk l
      letI := decHeightsOk r
      decidable_of_iff (HeightsOk l ∧ HeightsOk r ∧ h = 1 + max (rh l) (rh r))
        (by rw [HeightsOk])

instance (t : Node) : Decidable (HeightsOk t) := decHeightsOk t

/-- Decidability of `BalancedT`. -/
def decBalancedT : (t : Node) → Decidable (BalancedT t)
  | nil => Decidable.isTrue trivial
  | node l k h r =>
      letI := decBalancedT l
      letI := decBalancedT r
      decidable_of_iff (BalancedT l ∧ BalancedT r ∧ rh l - rh r ≤ 1 ∧ rh r - rh l ≤ 1)
        (by rw [BalancedT])

instance (t : Node) : Decidable (BalancedT t) := decBalancedT t

/-- Well-formedness of a full container state: structural invariants plus
coherent `__size`, `__min_element`, `__max_element`. -/
def WF (t : Tree) : Prop :=
  HeightsOk t.root ∧ BalancedT t.root ∧ Ordered t.root ∧
    t.size = (inorder t.root).length ∧
    t.minE = leftmostKey t.root ∧ t.maxE = rightmostKey t.root

instance (t : Node) : Decidable (Ordered t) :=
  inferInstanceAs (Decidable (List.Sorted (· < ·) (inorder t)))

instance (t : Tree) : Decidable (WF t) :=
  inferInstanceAs (Decidable (_ ∧ _ ∧ _ ∧ _ ∧ _ ∧ _))

/-- States reachable from the empty tree by successful inserts and removes. -/
inductive Reachable : Tree → Prop where
  | empty : Reachable emptyT
  | insert (t t2 : Tree) (x : Int) : Reachable t → t.insert x = Except.ok t2 → Reachable t2
  | remove (t t2 : Tree) (x : Int) : Reachable t → t.remove x = Except.ok t2 → Reachable t2

/-! ## Basic lemmas -/

theorem neg_one_le_rh (t : Node) : -1 ≤ rh t := by
  induction t with
  | nil => simp [rh]
  | node l k h r ihl ihr => simp only [rh]; omega

theorem ch_eq_rh {t : Node} (h : HeightsOk t) : ch t = rh t := by
  cases t with
  | nil => rfl
  | node l k hh r => simpa [ch, rh] using h.2.2

theorem hfc_eq (l r : Node) :
    get_tree_height_from_children l r = 1 + max (ch l) (ch r) := by
  cases l <;> cases r <;> simp [get_tree_height_from_children, ch] <;> omega

theorem gbf_node (l r : Node) (k h : Int) :
    get_balance_factor (node l k h r) = ch l - ch r := by
  cases l <;> cases r <;> simp [get_balance_factor, ch]

theorem inorder_eq_nil {t : Node} : inorder t = [] ↔ t = nil := by
  cases t <;> simp [inorder]

theorem sz_eq_length (t : Node) : sz t = (inorder t).length := by
  induction t with
  | nil => rfl
  | node l k h r ihl ihr => simp [sz, inorder, ihl, ihr]; omega

theorem leftmostKey_eq_head (t : Node) : leftmostKey t = (inorder t).head? := by
  induction t with
  | nil => rfl
  | node l k h r ihl ihr =>
      by_cases hl : l = nil
      · subst hl; simp [leftmostKey, inorder]
      · rw [leftmostKey, if_neg hl, ihl, inorder]
        have : inorder l ≠ [] := by simpa [inorder_eq_nil]
        cases hi : inorder l with
        | nil => exact absurd hi this
        | cons a as => simp [hi]

theorem rightmostKey_eq_getLast (t : Node) : rightmostKey t = (inorder t).getLast? := by
  induction t with
  | nil => rfl
  | node l k h r ihl ihr =>
      by_cases hr : r = nil
      · subst hr
        rw [rightmostKey, if_pos rfl, inorder]
        simp [List.getLast?_append, inorder]
      · rw [rightmostKey, if_neg hr, ihr, inorder]
        have hne : inorder r ≠ [] := by simpa [inorder_eq_nil]
        rw [List.getLast?_append]
        cases hi : inorder r with
        | nil => exact absurd hi hne
        | cons a as =>
            simp only [List.getLast?_cons_cons]
            cases hlast : (a :: as).getLast? with
            | none => simp at hlast
            | some b => simp [hlast]

theorem ch_nil : ch nil = -1 := rfl

theorem ch_node (l r : Node) (k h : Int) : ch (node l k h r) = h := rfl

theorem rh_nil : rh nil = -1 := rfl

theorem rh_node (l r : Node) (k h : Int) :
    rh (node l k h r) = 1 + max (rh l) (rh r) := rfl

theorem heightsOk_node {l r : Node} {k h : Int} :
    HeightsOk (node l k h r) ↔ HeightsOk l ∧ HeightsOk r ∧ h = 1 + max (rh l) (rh r) :=
  Iff.rfl

theorem balancedT_node {l r : Node} {k h : Int} :
    BalancedT (node l k h r) ↔
      BalancedT l ∧ BalancedT r ∧ rh l - rh r ≤ 1 ∧ rh r - rh l ≤ 1 :=
  Iff.rfl

theorem balanceSlot_succ (fuel : Nat) (t : Node) :
    balanceSlot (fuel + 1) t =
      (match dispatchB (updH t) with
       | (t2, true) => balanceSlot fuel t2
       | (t2, false) => t2) := rfl

theorem balanceSlot_succ_rot {t t2 : Node} (h1 : dispatchB (updH t) = (t2, true))
    (fuel : Nat) : balanceSlot (fuel + 1) t = balanceSlot fuel t2 := by
  rw [balanceSlot_succ, h1]

theorem balanceSlot_succ_no {t t2 : Node} (h1 : dispatchB (updH t) = (t2, false))
    (fuel : Nat) : balanceSlot (fuel + 1) t = t2 := by
  rw [balanceSlot_succ, h1]


/-! ## The rebalancing body on a slot whose children are valid AVL trees

After an insertion or a removal below one child, the two subtrees hanging off
the processed slot are valid AVL trees whose heights differ by at most 2.  The
lemmas below compute the loop `_balance_to_root` runs at that slot: it
terminates after at most one rotation (so any fuel of at least 2 yields the
same tree), restores the AVL invariants, preserves the in-order sequence and
bounds the resulting height. -/

/-- What the rebalancing body guarantees at one slot `node l k h r`: a unique
result for every sufficient fuel, restored invariants, the unchanged in-order
sequence, and height bounds (with the exact height when no rotation fires). -/
structure SlotPost (l : Node) (k h : Int) (r : Node) (t2 : Node) : Prop where
  run : ∀ fuel, 2 ≤ fuel → balanceSlot fuel (node l k h r) = t2
  hts : HeightsOk t2
  bal : BalancedT t2
  ino : inorder t2 = inorder l ++ k :: inorder r
  lb : max (rh l) (rh r) ≤ rh t2
  ub : rh t2 ≤ 1 + max (rh l) (rh r)
  hEq : rh l - rh r ≤ 1 → rh r - rh l ≤ 1 → rh t2 = 1 + max (rh l) (rh r)

/-- The LL case: single right rotation; left child taller, its left side at
least as tall as its right side. -/
theorem balanceSlot_LL (k h lk lh : Int) (ll lr r : Node)
    (hhll : HeightsOk ll) (hhlr : HeightsOk lr) (hhr : HeightsOk r)
    (hbll : BalancedT ll) (hblr : BalancedT lr) (hbr : BalancedT r)
    (hlh : lh = 1 + max (rh ll) (rh lr))
    (hf1 : rh ll = rh r + 1) (hf2 : rh r ≤ rh lr) (hf3 : rh lr ≤ rh r + 1) :
    ∃ t2, SlotPost (node ll lk lh lr) k h r t2 := by
  have hchll := ch_eq_rh hhll
  have hchlr := ch_eq_rh hhlr
  have hchr := ch_eq_rh hhr
  have hchl : ch (node ll lk lh lr) = rh (node ll lk lh lr) := by
    rw [ch_node, hlh, rh_node]
  have hupd : updH (node (node ll lk lh lr) k h r) =
      node (node ll lk lh lr) k (1 + max (rh (node ll lk lh lr)) (rh r)) r := by
    simp [updH, hfc_eq, hchl, hchr]
  have hg1 :
      get_balance_factor
        (node (node ll lk lh lr) k (1 + max (rh (node ll lk lh lr)) (rh r)) r) =
        rh (node ll lk lh lr) - rh r := by
    rw [gbf_node, hchl, hchr]
  have hgl :
      get_balance_factor
        (Node.left (node (node ll lk lh lr) k (1 + max (rh (node ll lk lh lr)) (rh r)) r)) =
        rh ll - rh lr := by
    simp only [Node.left]; rw [gbf_node, hchll, hchlr]
  have hk1 :
      rotKind (node (node ll lk lh lr) k (1 + max (rh (node ll lk lh lr)) (rh r)) r) =
        some RKind.LL := by
    rw [rotKind, if_pos ⟨by rw [hg1]; simp only [rh_node]; omega, by rw [hgl]; omega⟩]
  have hdisp1 :
      dispatchB (node (node ll lk lh lr) k (1 + max (rh (node ll lk lh lr)) (rh r)) r) =
        (rotate_LL (node (node ll lk lh lr) k
          (1 + max (rh (node ll lk lh lr)) (rh r)) r), true) := by
    rw [dispatchB, hk1]; simp [Node.left]
  have hrot :
      rotate_LL (node (node ll lk lh lr) k (1 + max (rh (node ll lk lh lr)) (rh r)) r) =
        node ll lk (1 + max (rh ll) (1 + max (rh lr) (rh r)))
          (node lr k (1 + max (rh lr) (rh r)) r) := by
    simp [rotate_LL, rotate_right, hfc_eq, ch_node, hchll, hchlr, hchr]
  have hg2 :
      get_balance_factor (node ll lk (1 + max (rh ll) (1 + max (rh lr) (rh r)))
        (node lr k (1 + max (rh lr) (rh r)) r)) =
        rh ll - (1 + max (rh lr) (rh r)) := by
    rw [gbf_node, hchll, ch_node]
  have hk2 :
      rotKind (node ll lk (1 + max (rh ll) (1 + max (rh lr) (rh r)))
        (node lr k (1 + max (rh lr) (rh r)) r)) = none := by
    have hno2 : ¬ 2 ≤ rh ll - (1 + max (rh lr) (rh r)) := by omega
    have hnom2 : ¬ rh ll - (1 + max (rh lr) (rh r)) ≤ -2 := by omega
    rw [rotKind, if_neg (fun hc => hno2 (hg2 ▸ hc.1)),
      if_neg (fun hc => hno2 (hg2 ▸ hc.1)),
      if_neg (fun hc => hnom2 (hg2 ▸ hc.1)),
      if_neg (fun hc => hnom2 (hg2 ▸ hc.1))]
  have hupd2 :
      updH (node ll lk (1 + max (rh ll) (1 + max (rh lr) (rh r)))
        (node lr k (1 + max (rh lr) (rh r)) r)) =
        node ll lk (1 + max (rh ll) (1 + max (rh lr) (rh r)))
          (node lr k (1 + max (rh lr) (rh r)) r) := by
    simp [updH, hfc_eq, ch_node, hchll]
  have hdisp2 :
      dispatchB (node ll lk (1 + max (rh ll) (1 + max (rh lr) (rh r)))
        (node lr k (1 + max (rh lr) (rh r)) r)) =
        (node ll lk (1 + max (rh ll) (1 + max (rh lr) (rh r)))
          (node lr k (1 + max (rh lr) (rh r)) r), false) := by
    rw [dispatchB, hk2]
  refine ⟨node ll lk (1 + max (rh ll) (1 + max (rh lr) (rh r)))
    (node lr k (1 + max (rh lr) (rh r)) r), ?_, ?_, ?_, ?_, ?_, ?_, ?_⟩
  · intro fuel hf
    obtain ⟨f, rfl⟩ : ∃ f, fuel = f + 1 + 1 := ⟨fuel - 2, by omega⟩
    rw [balanceSlot_succ_rot (by rw [hupd]; exact hdisp1), hrot,
      balanceSlot_succ_no (by rw [hupd2]; exact hdisp2)]
  · exact ⟨hhll, ⟨hhlr, hhr, by simp [rh]⟩, by simp [rh]⟩
  · exact ⟨hbll, ⟨hblr, hbr, by omega, by omega⟩, by simp [rh]; omega, by simp [rh]; omega⟩
  · simp [inorder]
  · simp only [rh_node]; omega
  · simp only [rh_node]; omega
  · intro h1 _; exfalso; simp only [rh_node] at h1; omega

/-- The LR case: double rotation; left child taller with balance factor `-1`. -/
theorem balanceSlot_LR (k h lk lh ck chh : Int) (ll c d r : Node)
    (hhll : HeightsOk ll) (hhc : HeightsOk c) (hhd : HeightsOk d) (hhr : HeightsOk r)
    (hbll : BalancedT ll) (hbc : BalancedT c) (hbd3 : BalancedT d) (hbr : BalancedT r)
    (hchh : chh = 1 + max (rh c) (rh d))
    (hlh : lh = 1 + max (rh ll) (rh (node c ck chh d)))
    (hf1 : rh ll = rh r) (hf2 : max (rh c) (rh d) = rh r)
    (hf3 : rh r - 1 ≤ rh c) (hf4 : rh c ≤ rh r)
    (hf5 : rh r - 1 ≤ rh d) (hf6 : rh d ≤ rh r) :
    ∃ t2, SlotPost (node ll lk lh (node c ck chh d)) k h r t2 := by
  have hchll := ch_eq_rh hhll
  have hchc := ch_eq_rh hhc
  have hchd := ch_eq_rh hhd
  have hchr := ch_eq_rh hhr
  have hchlr : ch (node c ck chh d) = rh (node c ck chh d) := by
    rw [ch_node, hchh, rh_node]
  have hchl : ch (node ll lk lh (node c ck chh d)) =
      rh (node ll lk lh (node c ck chh d)) := by
    simp only [ch_node, hlh, rh_node]
  have hupd : updH (node (node ll lk lh (node c ck chh d)) k h r) =
      node (node ll lk lh (node c ck chh d)) k
        (1 + max (rh (node ll lk lh (node c ck chh d))) (rh r)) r := by
    simp [updH, hfc_eq, hchl, hchr]
  have hg1 :
      get_balance_factor (node (node ll lk lh (node c ck chh d)) k
        (1 + max (rh (node ll lk lh (node c ck chh d))) (rh r)) r) =
        rh (node ll lk lh (node c ck chh d)) - rh r := by
    rw [gbf_node, hchl, hchr]
  have hgl :
      get_balance_factor (Node.left (node (node ll lk lh (node c ck chh d)) k
        (1 + max (rh (node ll lk lh (node c ck chh d))) (rh r)) r)) =
        rh ll - rh (node c ck chh d) := by
    simp only [Node.left]; rw [gbf_node, hchll, hchlr]
  have hlbf : rh ll - rh (node c ck chh d) = -1 := by
    simp only [rh_node]; omega
  have hk1 :
      rotKind (node (node ll lk lh (node c ck chh d)) k
        (1 + max (rh (node ll lk lh (node c ck chh d))) (rh r)) r) =
        some RKind.LR := by
    rw [rotKind, if_neg (fun hc2 => by rw [hgl, hlbf] at hc2; omega),
      if_pos ⟨by rw [hg1]; simp only [rh_node]; omega, by rw [hgl, hlbf]⟩]
  have hdisp1 :
      dispatchB (node (node ll lk lh (node c ck chh d)) k
        (1 + max (rh (node ll lk lh (node c ck chh d))) (rh r)) r) =
        (rotate_LR (node (node ll lk lh (node c ck chh d)) k
          (1 + max (rh (node ll lk lh (node c ck chh d))) (rh r)) r), true) := by
    rw [dispatchB, hk1]; simp [Node.left]
  have hrot :
      rotate_LR (node (node ll lk lh (node c ck chh d)) k
        (1 + max (rh (node ll lk lh (node c ck chh d))) (rh r)) r) =
        node (node ll lk (1 + max (rh ll) (rh c)) c) ck
          (1 + max (1 + max (rh ll) (rh c)) (1 + max (rh d) (rh r)))
          (node d k (1 + max (rh d) (rh r)) r) := by
    simp [rotate_LR, rotate_left, rotate_right, hfc_eq, ch_node, hchll, hchc, hchd, hchr]
  have hg2 :
      get_balance_factor (node (node ll lk (1 + max (rh ll) (rh c)) c) ck
        (1 + max (1 + max (rh ll) (rh c)) (1 + max (rh d) (rh r)))
        (node d k (1 + max (rh d) (rh r)) r)) =
        (1 + max (rh ll) (rh c)) - (1 + max (rh d) (rh r)) := by
    rw [gbf_node, ch_node, ch_node]
  have hk2 :
      rotKind (node (node ll lk (1 + max (rh ll) (rh c)) c) ck
        (1 + max (1 + max (rh ll) (rh c)) (1 + max (rh d) (rh r)))
        (node d k (1 + max (rh d) (rh r)) r)) = none := by
    have hno2 : ¬ 2 ≤ (1 + max (rh ll) (rh c)) - (1 + max (rh d) (rh r)) := by omega
    have hnom2 : ¬ (1 + max (rh ll) (rh c)) - (1 + max (rh d) (rh r)) ≤ -2 := by omega
    rw [rotKind, if_neg (fun hc2 => hno2 (hg2 ▸ hc2.1)),
      if_neg (fun hc2 => hno2 (hg2 ▸ hc2.1)),
      if_neg (fun hc2 => hnom2 (hg2 ▸ hc2.1)),
      if_neg (fun hc2 => hnom2 (hg2 ▸ hc2.1))]
  have hupd2 :
      updH (node (node ll lk (1 + max (rh ll) (rh c)) c) ck
        (1 + max (1 + max (rh ll) (rh c)) (1 + max (rh d) (rh r)))
        (node d k (1 + max (rh d) (rh r)) r)) =
        node (node ll lk (1 + max (rh ll) (rh c)) c) ck
          (1 + max (1 + max (rh ll) (rh c)) (1 + max (rh d) (rh r)))
          (node d k (1 + max (rh d) (rh r)) r) := by
    simp [updH, hfc_eq, ch_node]
  have hdisp2 :
      dispatchB (node (node ll lk (1 + max (rh ll) (rh c)) c) ck
        (1 + max (1 + max (rh ll) (rh c)) (1 + max (rh d) (rh r)))
        (node d k (1 + max (rh d) (rh r)) r)) =
        (node (node ll lk (1 + max (rh ll) (rh c)) c) ck
          (1 + max (1 + max (rh ll) (rh c)) (1 + max (rh d) (rh r)))
          (node d k (1 + max (rh d) (rh r)) r), false) := by
    rw [dispatchB, hk2]
  refine ⟨node (node ll lk (1 + max (rh ll) (rh c)) c) ck
    (1 + max (1 + max (rh ll) (rh c)) (1 + max (rh d) (rh r)))
    (node d k (1 + max (rh d) (rh r)) r), ?_, ?_, ?_, ?_, ?_, ?_, ?_⟩
  · intro fuel hf
    obtain ⟨f, rfl⟩ : ∃ f, fuel = f + 1 + 1 := ⟨fuel - 2, by omega⟩
    rw [balanceSlot_succ_rot (by rw [hupd]; exact hdisp1), hrot,
      balanceSlot_succ_no (by rw [hupd2]; exact hdisp2)]
  · exact ⟨⟨hhll, hhc, by simp [rh]⟩, ⟨hhd, hhr, by simp [rh]⟩, by simp [rh]⟩
  · refine ⟨⟨hbll, hbc, by omega, by omega⟩, ⟨hbd3, hbr, by omega, by omega⟩, ?_, ?_⟩ <;>
      simp only [rh_node] <;> omega
  · simp [inorder]
  · simp only [rh_node]; omega
  · simp only [rh_node]; omega
  · intro h1 _; exfalso; simp only [rh_node] at h1; omega

/-- The RR case: single left rotation; right child taller, its right side at
least as tall as its left side. -/
theorem balanceSlot_RR (k h rk rhh : Int) (l rl rr : Node)
    (hhl : HeightsOk l) (hhrl : HeightsOk rl) (hhrr : HeightsOk rr)
    (hbl : BalancedT l) (hbrl : BalancedT rl) (hbrr : BalancedT rr)
    (hrhh : rhh = 1 + max (rh rl) (rh rr))
    (hf1 : rh rr = rh l + 1) (hf2 : rh l ≤ rh rl) (hf3 : rh rl ≤ rh l + 1) :
    ∃ t2, SlotPost l k h (node rl rk rhh rr) t2 := by
  have hchl := ch_eq_rh hhl
  have hchrl := ch_eq_rh hhrl
  have hchrr := ch_eq_rh hhrr
  have hchr : ch (node rl rk rhh rr) = rh (node rl rk rhh rr) := by
    rw [ch_node, hrhh, rh_node]
  have hupd : updH (node l k h (node rl rk rhh rr)) =
      node l k (1 + max (rh l) (rh (node rl rk rhh rr))) (node rl rk rhh rr) := by
    simp [updH, hfc_eq, hchl, hchr]
  have hg1 :
      get_balance_factor
        (node l k (1 + max (rh l) (rh (node rl rk rhh rr))) (node rl rk rhh rr)) =
        rh l - rh (node rl rk rhh rr) := by
    rw [gbf_node, hchl, hchr]
  have hgr :
      get_balance_factor
        (Node.right (node l k (1 + max (rh l) (rh (node rl rk rhh rr)))
          (node rl rk rhh rr))) =
        rh rl - rh rr := by
    simp only [Node.right]; rw [gbf_node, hchrl, hchrr]
  have hk1 :
      rotKind (node l k (1 + max (rh l) (rh (node rl rk rhh rr))) (node rl rk rhh rr)) =
        some RKind.RR := by
    have hgv : rh l - rh (node rl rk rhh rr) = -2 := by
      simp only [rh_node]; omega
    rw [rotKind, if_neg (fun hc => by rw [hg1, hgv] at hc; omega),
      if_neg (fun hc => by rw [hg1, hgv] at hc; omega),
      if_neg (fun hc => by rw [hgr] at hc; omega),
      if_pos ⟨by rw [hg1, hgv], by rw [hgr]; omega⟩]
  have hdisp1 :
      dispatchB (node l k (1 + max (rh l) (rh (node rl rk rhh rr)))
        (node rl rk rhh rr)) =
        (rotate_RR (node l k (1 + max (rh l) (rh (node rl rk rhh rr)))
          (node rl rk rhh rr)), true) := by
    rw [dispatchB, hk1]; simp [Node.right]
  have hrot :
      rotate_RR (node l k (1 + max (rh l) (rh (node rl rk rhh rr)))
        (node rl rk rhh rr)) =
        node (node l k (1 + max (rh l) (rh rl)) rl) rk
          (1 + max (1 + max (rh l) (rh rl)) (rh rr)) rr := by
    simp [rotate_RR, rotate_left, hfc_eq, ch_node, hchl, hchrl, hchrr]
  have hg2 :
      get_balance_factor (node (node l k (1 + max (rh l) (rh rl)) rl) rk
        (1 + max (1 + max (rh l) (rh rl)) (rh rr)) rr) =
        (1 + max (rh l) (rh rl)) - rh rr := by
    rw [gbf_node, ch_node, hchrr]
  have hk2 :
      rotKind (node (node l k (1 + max (rh l) (rh rl)) rl) rk
        (1 + max (1 + max (rh l) (rh rl)) (rh rr)) rr) = none := by
    have hno2 : ¬ 2 ≤ (1 + max (rh l) (rh rl)) - rh rr := by omega
    have hnom2 : ¬ (1 + max (rh l) (rh rl)) - rh rr ≤ -2 := by omega
    rw [rotKind, if_neg (fun hc => hno2 (hg2 ▸ hc.1)),
      if_neg (fun hc => hno2 (hg2 ▸ hc.1)),
      if_neg (fun hc => hnom2 (hg2 ▸ hc.1)),
      if_neg (fun hc => hnom2 (hg2 ▸ hc.1))]
  have hupd2 :
      updH (node (node l k (1 + max (rh l) (rh rl)) rl) rk
        (1 + max (1 + max (rh l) (rh rl)) (rh rr)) rr) =
        node (node l k (1 + max (rh l) (rh rl)) rl) rk
          (1 + max (1 + max (rh l) (rh rl)) (rh rr)) rr := by
    simp [updH, hfc_eq, ch_node, hchrr]
  have hdisp2 :
      dispatchB (node (node l k (1 + max (rh l) (rh rl)) rl) rk
        (1 + max (1 + max (rh l) (rh rl)) (rh rr)) rr) =
        (node (node l k (1 + max (rh l) (rh rl)) rl) rk
          (1 + max (1 + max (rh l) (rh rl)) (rh rr)) rr, false) := by
    rw [dispatchB, hk2]
  refine ⟨node (node l k (1 + max (rh l) (rh rl)) rl) rk
    (1 + max (1 + max (rh l) (rh rl)) (rh rr)) rr, ?_, ?_, ?_, ?_, ?_, ?_, ?_⟩
  · intro fuel hf
    obtain ⟨f, rfl⟩ : ∃ f, fuel = f + 1 + 1 := ⟨fuel - 2, by omega⟩
    rw [balanceSlot_succ_rot (by rw [hupd]; exact hdisp1), hrot,
      balanceSlot_succ_no (by rw [hupd2]; exact hdisp2)]
  · exact ⟨⟨hhl, hhrl, by simp [rh]⟩, hhrr, by simp [rh]⟩
  · exact ⟨⟨hbl, hbrl, by omega, by omega⟩, hbrr, by simp [rh]; omega, by simp [rh]; omega⟩
  · simp [inorder]
  · simp only [rh_node]; omega
  · simp only [rh_node]; omega
  · intro _ h2; exfalso; simp only [rh_node] at h2; omega

/-- The RL case: double rotation; right child taller with balance factor `1`. -/
theorem balanceSlot_RL (k h rk rhh ck chh : Int) (l c d rr : Node)
    (hhl : HeightsOk l) (hhc : HeightsOk c) (hhd : HeightsOk d) (hhrr : HeightsOk rr)
    (hbl : BalancedT l) (hbc : BalancedT c) (hbd3 : BalancedT d) (hbrr : BalancedT rr)
    (hchh : chh = 1 + max (rh c) (rh d))
    (hrhh : rhh = 1 + max (rh (node c ck chh d)) (rh rr))
    (hf1 : rh rr = rh l) (hf2 : max (rh c) (rh d) = rh l)
    (hf3 : rh l - 1 ≤ rh c) (hf4 : rh c ≤ rh l)
    (hf5 : rh l - 1 ≤ rh d) (hf6 : rh d ≤ rh l) :
    ∃ t2, SlotPost l k h (node (node c ck chh d) rk rhh rr) t2 := by
  have hchl := ch_eq_rh hhl
  have hchc := ch_eq_rh hhc
  have hchd := ch_eq_rh hhd
  have hchrr := ch_eq_rh hhrr
  have hchrl : ch (node c ck chh d) = rh (node c ck chh d) := by
    rw [ch_node, hchh, rh_node]
  have hchr : ch (node (node c ck chh d) rk rhh rr) =
      rh (node (node c ck chh d) rk rhh rr) := by
    simp only [ch_node, hrhh, rh_node]
  have hupd : updH (node l k h (node (node c ck chh d) rk rhh rr)) =
      node l k (1 + max (rh l) (rh (node (node c ck chh d) rk rhh rr)))
        (node (node c ck chh d) rk rhh rr) := by
    simp [updH, hfc_eq, hchl, hchr]
  have hg1 :
      get_balance_factor (node l k
        (1 + max (rh l) (rh (node (node c ck chh d) rk rhh rr)))
        (node (node c ck chh d) rk rhh rr)) =
        rh l - rh (node (node c ck chh d) rk rhh rr) := by
    rw [gbf_node, hchl, hchr]
  have hgr :
      get_balance_factor (Node.right (node l k
        (1 + max (rh l) (rh (node (node c ck chh d) rk rhh rr)))
        (node (node c ck chh d) rk rhh rr))) =
        rh (node c ck chh d) - rh rr := by
    simp only [Node.right]; rw [gbf_node, hchrl, hchrr]
  have hrbf : rh (node c ck chh d) - rh rr = 1 := by
    simp only [rh_node]; omega
  have hk1 :
      rotKind (node l k (1 + max (rh l) (rh (node (node c ck chh d) rk rhh rr)))
        (node (node c ck chh d) rk rhh rr)) =
        some RKind.RL := by
    have hgv : rh l - rh (node (node c ck chh d) rk rhh rr) = -2 := by
      simp only [rh_node]; omega
    rw [rotKind, if_neg (fun hc2 => by rw [hg1, hgv] at hc2; omega),
      if_neg (fun hc2 => by rw [hg1, hgv] at hc2; omega),
      if_pos ⟨by rw [hg1, hgv], by rw [hgr, hrbf]⟩]
  have hdisp1 :
      dispatchB (node l k (1 + max (rh l) (rh (node (node c ck chh d) rk rhh rr)))
        (node (node c ck chh d) rk rhh rr)) =
        (rotate_RL (node l k (1 + max (rh l) (rh (node (node c ck chh d) rk rhh rr)))
          (node (node c ck chh d) rk rhh rr)), true) := by
    rw [dispatchB, hk1]; simp [Node.right]
  have hrot :
      rotate_RL (node l k (1 + max (rh l) (rh (node (node c ck chh d) rk rhh rr)))
        (node (node c ck chh d) rk rhh rr)) =
        node (node l k (1 + max (rh l) (rh c)) c) ck
          (1 + max (1 + max (rh l) (rh c)) (1 + max (rh d) (rh rr)))
          (node d rk (1 + max (rh d) (rh rr)) rr) := by
    simp [rotate_RL, rotate_left, rotate_right, hfc_eq, ch_node, hchl, hchc, hchd, hchrr]
  have hg2 :
      get_balance_factor (node (node l k (1 + max (rh l) (rh c)) c) ck
        (1 + max (1 + max (rh l) (rh c)) (1 + max (rh d) (rh rr)))
        (node d rk (1 + max (rh d) (rh rr)) rr)) =
        (1 + max (rh l) (rh c)) - (1 + max (rh d) (rh rr)) := by
    rw [gbf_node, ch_node, ch_node]
  have hk2 :
      rotKind (node (node l k (1 + max (rh l) (rh c)) c) ck
        (1 + max (1 + max (rh l) (rh c)) (1 + max (rh d) (rh rr)))
        (node d rk (1 + max (rh d) (rh rr)) rr)) = none := by
    have hno2 : ¬ 2 ≤ (1 + max (rh l) (rh c)) - (1 + max (rh d) (rh rr)) := by omega
    have hnom2 : ¬ (1 + max (rh l) (rh c)) - (1 + max (rh d) (rh rr)) ≤ -2 := by omega
    rw [rotKind, if_neg (fun hc2 => hno2 (hg2 ▸ hc2.1)),
      if_neg (fun hc2 => hno2 (hg2 ▸ hc2.1)),
      if_neg (fun hc2 => hnom2 (hg2 ▸ hc2.1)),
      if_neg (fun hc2 => hnom2 (hg2 ▸ hc2.1))]
  have hupd2 :
      updH (node (node l k (1 + max (rh l) (rh c)) c) ck
        (1 + max (1 + max (rh l) (rh c)) (1 + max (rh d) (rh rr)))
        (node d rk (1 + max (rh d) (rh rr)) rr)) =
        node (node l k (1 + max (rh l) (rh c)) c) ck
          (1 + max (1 + max (rh l) (rh c)) (1 + max (rh d) (rh rr)))
          (node d rk (1 + max (rh d) (rh rr)) rr) := by
    simp [updH, hfc_eq, ch_node]
  have hdisp2 :
      dispatchB (node (node l k (1 + max (rh l) (rh c)) c) ck
        (1 + max (1 + max (rh l) (rh c)) (1 + max (rh d) (rh rr)))
        (node d rk (1 + max (rh d) (rh rr)) rr)) =
        (node (node l k (1 + max (rh l) (rh c)) c) ck
          (1 + max (1 + max (rh l) (rh c)) (1 + max (rh d) (rh rr)))
          (node d rk (1 + max (rh d) (rh rr)) rr), false) := by
    rw [dispatchB, hk2]
  refine ⟨node (node l k (1 + max (rh l) (rh c)) c) ck
    (1 + max (1 + max (rh l) (rh c)) (1 + max (rh d) (rh rr)))
    (node d rk (1 + max (rh d) (rh rr)) rr), ?_, ?_, ?_, ?_, ?_, ?_, ?_⟩
  · intro fuel hf
    obtain ⟨f, rfl⟩ : ∃ f, fuel = f + 1 + 1 := ⟨fuel - 2, by omega⟩
    rw [balanceSlot_succ_rot (by rw [hupd]; exact hdisp1), hrot,
      balanceSlot_succ_no (by rw [hupd2]; exact hdisp2)]
  · exact ⟨⟨hhl, hhc, by simp [rh]⟩, ⟨hhd, hhrr, by simp [rh]⟩, by simp [rh]⟩
  · refine ⟨⟨hbl, hbc, by omega, by omega⟩, ⟨hbd3, hbrr, by omega, by omega⟩, ?_, ?_⟩ <;>
      simp only [rh_node] <;> omega
  · simp [inorder]
  · simp only [rh_node]; omega
  · simp only [rh_node]; omega
  · intro _ h2; exfalso; simp only [rh_node] at h2; omega

/-- The complete behaviour of the per-slot rebalancing body when both children
are valid AVL trees differing in height by at most 2. -/
theorem balanceSlot_spec (k h : Int) (l r : Node)
    (hhl : HeightsOk l) (hbl : BalancedT l) (hhr : HeightsOk r) (hbr : BalancedT r)
    (hd1 : rh l - rh r ≤ 2) (hd2 : rh r - rh l ≤ 2) :
    ∃ t2, SlotPost l k h r t2 := by
  have hchl := ch_eq_rh hhl
  have hchr := ch_eq_rh hhr
  by_cases hb1 : rh l - rh r ≤ 1 ∧ rh r - rh l ≤ 1
  · -- no rotation is selected; the body only refreshes the cached height
    have hupd : updH (node l k h r) = node l k (1 + max (rh l) (rh r)) r := by
      simp [updH, hfc_eq, hchl, hchr]
    have hg : get_balance_factor (node l k (1 + max (rh l) (rh r)) r) = rh l - rh r := by
      rw [gbf_node, hchl, hchr]
    have hno2 : ¬ 2 ≤ get_balance_factor (node l k (1 + max (rh l) (rh r)) r) := by
      rw [hg]; omega
    have hnom2 : ¬ get_balance_factor (node l k (1 + max (rh l) (rh r)) r) ≤ -2 := by
      rw [hg]; omega
    have hk : rotKind (node l k (1 + max (rh l) (rh r)) r) = none := by
      rw [rotKind, if_neg (fun hc => hno2 hc.1), if_neg (fun hc => hno2 hc.1),
        if_neg (fun hc => hnom2 hc.1), if_neg (fun hc => hnom2 hc.1)]
    have hdisp : dispatchB (node l k (1 + max (rh l) (rh r)) r) =
        (node l k (1 + max (rh l) (rh r)) r, false) := by
      rw [dispatchB, hk]
    refine ⟨node l k (1 + max (rh l) (rh r)) r, ?_, ⟨hhl, hhr, rfl⟩,
      ⟨hbl, hbr, hb1.1, hb1.2⟩, by simp [inorder], by simp [rh], by simp [rh],
      fun _ _ => by simp [rh]⟩
    intro fuel hf
    obtain ⟨f, rfl⟩ : ∃ f, fuel = f + 1 := ⟨fuel - 1, by omega⟩
    rw [balanceSlot_succ_no (by rw [hupd]; exact hdisp)]
  · by_cases hLt : 2 ≤ rh l - rh r
    · -- left-heavy: the left child exists
      rcases l with _ | ⟨ll, lk, lh, lr⟩
      · exfalso; have := neg_one_le_rh r; simp [rh] at hLt; omega
      rw [heightsOk_node] at hhl
      obtain ⟨hhll, hhlr, hlh⟩ := hhl
      rw [balancedT_node] at hbl
      obtain ⟨hbll, hblr, hbd1, hbd2⟩ := hbl
      by_cases hll : 0 ≤ rh ll - rh lr
      · refine balanceSlot_LL k h lk lh ll lr r hhll hhlr hhr hbll hblr hbr hlh ?_ ?_ ?_ <;>
          (simp only [rh_node] at hLt hd1; omega)
      · rcases lr with _ | ⟨c, ck, chh, d⟩
        · exfalso; have := neg_one_le_rh ll
          simp only [rh_node, rh_nil] at hLt hll; omega
        rw [heightsOk_node] at hhlr
        obtain ⟨hhc, hhd, hchh⟩ := hhlr
        rw [balancedT_node] at hblr
        obtain ⟨hbc, hbd3, hbd4, hbd5⟩ := hblr
        have h1 := neg_one_le_rh c
        have h2 := neg_one_le_rh d
        simp only [rh_node] at hLt hd1 hll hbd1 hbd2
        exact balanceSlot_LR k h lk lh ck chh ll c d r hhll hhc hhd hhr
          hbll hbc hbd3 hbr hchh hlh (by omega) (by omega) (by omega) (by omega)
          (by omega) (by omega)
    · -- right-heavy: the right child exists
      have hRt : 2 ≤ rh r - rh l := by omega
      rcases r with _ | ⟨rl, rk, rhh, rr⟩
      · exfalso; have := neg_one_le_rh l; simp [rh] at hRt; omega
      rw [heightsOk_node] at hhr
      obtain ⟨hhrl, hhrr, hrhh⟩ := hhr
      rw [balancedT_node] at hbr
      obtain ⟨hbrl, hbrr, hbd1, hbd2⟩ := hbr
      by_cases hrl1 : 1 ≤ rh rl - rh rr
      · -- RL: the right child's left side is strictly taller
        rcases rl with _ | ⟨c, ck, chh, d⟩
        · exfalso; have := neg_one_le_rh rr
          simp only [rh_nil] at hrl1; omega
        rw [heightsOk_node] at hhrl
        obtain ⟨hhc, hhd, hchh⟩ := hhrl
        rw [balancedT_node] at hbrl
        obtain ⟨hbc, hbd3, hbd4, hbd5⟩ := hbrl
        have h1 := neg_one_le_rh c
        have h2 := neg_one_le_rh d
        simp only [rh_node] at hRt hd2 hrl1 hbd1 hbd2
        exact balanceSlot_RL k h rk rhh ck chh l c d rr hhl hhc hhd hhrr
          hbl hbc hbd3 hbrr hchh hrhh (by omega) (by omega) (by omega) (by omega)
          (by omega) (by omega)
      · refine balanceSlot_RR k h rk rhh l rl rr hhl hhrl hhrr hbl hbrl hbrr hrhh
          ?_ ?_ ?_ <;> (simp only [rh_node] at hRt hd2 hrl1; omega)

/-! ## Sorted-list bookkeeping for insertion and removal -/

/-- Insertion into a sorted list at the position the BST descent selects. -/
def insertList (x : Int) : List Int → List Int
  | [] => [x]
  | y :: ys => if x < y then x :: y :: ys else y :: insertList x ys

/-- First-occurrence removal from a list. -/
def removeList (x : Int) : List Int → List Int
  | [] => []
  | y :: ys => if x = y then ys else y :: removeList x ys

theorem length_insertList (x : Int) (l : List Int) :
    (insertList x l).length = l.length + 1 := by
  induction l with
  | nil => rfl
  | cons y ys ih =>
      rw [insertList]
      split
      · simp
      · simp [ih]

theorem mem_insertList (x z : Int) (l : List Int) :
    z ∈ insertList x l ↔ z = x ∨ z ∈ l := by
  induction l with
  | nil => simp [insertList]
  | cons y ys ih =>
      rw [insertList]
      split
      · simp
      · simp [ih]; tauto

theorem insertList_append_lt {x k : Int} (a b : List Int) (hxk : x < k) :
    insertList x (a ++ k :: b) = insertList x a ++ k :: b := by
  induction a with
  | nil => simp [insertList, hxk]
  | cons y ys ih =>
      simp only [List.cons_append, insertList, List.append_eq]
      split
      · rfl
      · rw [ih]; rfl

theorem insertList_append_ge {x k : Int} (a b : List Int)
    (ha : ∀ y ∈ a, ¬ x < y) (hk : ¬ x < k) :
    insertList x (a ++ k :: b) = a ++ k :: insertList x b := by
  induction a with
  | nil => simp [insertList, hk]
  | cons y ys ih =>
      simp only [List.cons_append, insertList, List.append_eq]
      rw [if_neg (ha y (by simp)), ih (fun z hz => ha z (by simp [hz]))]

theorem sorted_insertList {x : Int} {l : List Int}
    (hs : List.Sorted (· < ·) l) (hx : x ∉ l) :
    List.Sorted (· < ·) (insertList x l) := by
  induction l with
  | nil => simp [insertList]
  | cons y ys ih =>
      rw [List.sorted_cons] at hs
      rw [insertList]
      split
      · rw [List.sorted_cons]
        refine ⟨?_, List.sorted_cons.2 hs⟩
        intro b hb
        rcases List.mem_cons.1 hb with rfl | hb
        · assumption
        · exact lt_trans (by assumption) (hs.1 b hb)
      · rw [List.sorted_cons]
        have hxy : x ≠ y := fun hxy => hx (by simp [hxy])
        have hyx : y < x := by
          rcases lt_trichotomy x y with hc | hc | hc
          · exact absurd hc (by assumption)
          · exact absurd hc hxy
          · exact hc
        refine ⟨?_, ih hs.2 (fun hc => hx (by simp [hc]))⟩
        intro b hb
        rcases (mem_insertList x b ys).1 hb with rfl | hb
        · exact hyx
        · exact hs.1 b hb

theorem removeList_cons_self (x : Int) (l : List Int) :
    removeList x (x :: l) = l := by
  rw [removeList, if_pos rfl]

theorem removeList_append_left {x : Int} (a b : List Int) (hxa : x ∈ a) :
    removeList x (a ++ b) = removeList x a ++ b := by
  induction a with
  | nil => simp at hxa
  | cons y ys ih =>
      simp only [List.cons_append, removeList, List.append_eq]
      split
      · rfl
      · rcases List.mem_cons.1 hxa with rfl | hxa2
        · simp_all
        · rw [ih hxa2]; rfl

theorem removeList_append_right {x : Int} (a b : List Int)
    (ha : ∀ y ∈ a, x ≠ y) :
    removeList x (a ++ b) = a ++ removeList x b := by
  induction a with
  | nil => rfl
  | cons y ys ih =>
      simp only [List.cons_append, removeList, List.append_eq]
      rw [if_neg (ha y (by simp)), ih (fun z hz => ha z (by simp [hz]))]

theorem removeList_not_mem {x : Int} (l : List Int) (hx : x ∉ l) :
    removeList x l = l := by
  induction l with
  | nil => rfl
  | cons y ys ih =>
      rw [removeList, if_neg (fun hc => hx (by simp [hc])), ih (fun hc => hx (by simp [hc]))]

theorem length_removeList {x : Int} (l : List Int) (hx : x ∈ l) :
    (removeList x l).length + 1 = l.length := by
  induction l with
  | nil => simp at hx
  | cons y ys ih =>
      rw [removeList]
      split
      · simp
      · rcases List.mem_cons.1 hx with rfl | hx2
        · simp_all
        · simp [ih hx2]

theorem removeList_sublist (x : Int) (l : List Int) :
    List.Sublist (removeList x l) l := by
  induction l with
  | nil => simp [removeList]
  | cons y ys ih =>
      rw [removeList]
      split
      · exact List.sublist_cons_self y ys
      · exact List.Sublist.cons₂ y ih

theorem sorted_removeList {x : Int} {l : List Int} (hs : List.Sorted (· < ·) l) :
    List.Sorted (· < ·) (removeList x l) :=
  List.Pairwise.sublist (removeList_sublist x l) hs

theorem mem_removeList {x z : Int} {l : List Int} (h : z ∈ removeList x l) : z ∈ l := by
  induction l with
  | nil => simp [removeList] at h
  | cons y ys ih =>
      rw [removeList] at h
      split at h
      · simp [h]
      · rcases List.mem_cons.1 h with rfl | h2
        · simp
        · simp [ih h2]

theorem not_mem_removeList {x : Int} {l : List Int}
    (hs : List.Sorted (· < ·) l) : x ∉ removeList x l := by
  induction l with
  | nil => simp [removeList]
  | cons y ys ih =>
      rw [List.sorted_cons] at hs
      rw [removeList]
      split
      · intro hc
        have := hs.1 x hc
        omega
      · intro hc
        rcases List.mem_cons.1 hc with rfl | hc2
        · simp_all
        · exact ih hs.2 hc2

/-- The BST ordering at a node, decomposed. -/
theorem ordered_node_iff {l r : Node} {k h : Int} :
    Ordered (node l k h r) ↔
      Ordered l ∧ Ordered r ∧ (∀ y ∈ inorder l, y < k) ∧ (∀ y ∈ inorder r, k < y) := by
  constructor
  · intro ho
    obtain ⟨h1, h2, h4⟩ := List.pairwise_append.1 ho
    rw [List.pairwise_cons] at h2
    exact ⟨h1, h2.2, fun y hy => h4 y hy k (by simp), h2.1⟩
  · rintro ⟨h1, h2, h3, h4⟩
    show List.Pairwise (fun a b => a < b) (inorder l ++ k :: inorder r)
    rw [List.pairwise_append]
    refine ⟨h1, ?_, ?_⟩
    · rw [List.pairwise_cons]; exact ⟨h4, h2⟩
    · intro a ha b hb
      rcases List.mem_cons.1 hb with rfl | hb
      · exact h3 a ha
      · exact lt_trans (h3 a ha) (h4 b hb)

/-! ## Specification of `_insert_aux` -/

/-- What `_insert_aux` plus its rebalancing walk does on a valid AVL tree:
a present key is reported as a duplicate with no tree constructed, an absent
key is inserted at its BST position with all invariants restored and the height
growing by at most one. -/
theorem insert_aux_spec (x : Int) (t : Node)
    (hh : HeightsOk t) (hb : BalancedT t) (ho : Ordered t)
    (fuel : Nat) (hf : 2 ≤ fuel) :
    (x ∈ inorder t → insert_aux fuel x t = none) ∧
    (x ∉ inorder t → ∃ t2, insert_aux fuel x t = some t2 ∧
      HeightsOk t2 ∧ BalancedT t2 ∧ inorder t2 = insertList x (inorder t) ∧
      rh t ≤ rh t2 ∧ rh t2 ≤ rh t + 1) := by
  induction t with
  | nil =>
      refine ⟨fun hx => by simp [inorder] at hx, fun _ => ?_⟩
      obtain ⟨t2, hpost⟩ := balanceSlot_spec x 0 nil nil trivial trivial trivial trivial
        (by simp [rh]) (by simp [rh])
      refine ⟨t2, ?_, hpost.hts, hpost.bal, ?_, ?_, ?_⟩
      · rw [insert_aux]; rw [hpost.run fuel hf]
      · rw [hpost.ino]; simp [inorder, insertList]
      · have := hpost.lb; simp [rh] at this ⊢; omega
      · have := hpost.ub; simp [rh] at this ⊢; omega
  | node l k h r ihl ihr =>
      rw [heightsOk_node] at hh
      obtain ⟨hhl, hhr, hlh⟩ := hh
      rw [balancedT_node] at hb
      obtain ⟨hbl, hbr, hbd1, hbd2⟩ := hb
      rw [ordered_node_iff] at ho
      obtain ⟨hol, hor, hlk, hkr⟩ := ho
      rcases lt_trichotomy x k with hxk | hxk | hxk
      · -- descend left
        constructor
        · intro hx
          have hxl : x ∈ inorder l := by
            rcases (by simpa [inorder] using hx :
                x ∈ inorder l ∨ x = k ∨ x ∈ inorder r) with hc | hc | hc
            · exact hc
            · omega
            · have := hkr x hc; omega
          rw [insert_aux, if_pos hxk, (ihl hhl hbl hol).1 hxl]
          rfl
        · intro hx
          have hxl : x ∉ inorder l := fun hc => hx (by simp [inorder, hc])
          obtain ⟨l2, heq, hh2, hb2, hio2, hlb2, hub2⟩ := (ihl hhl hbl hol).2 hxl
          obtain ⟨t2, hpost⟩ := balanceSlot_spec k h l2 r hh2 hb2 hhr hbr
            (by omega) (by omega)
          refine ⟨t2, ?_, hpost.hts, hpost.bal, ?_, ?_, ?_⟩
          · rw [insert_aux, if_pos hxk, heq]
            simp only [Option.map_some']
            rw [hpost.run fuel hf]
          · rw [hpost.ino, hio2, inorder, insertList_append_lt _ _ hxk]
          · by_cases hc : rh l2 - rh r ≤ 1 ∧ rh r - rh l2 ≤ 1
            · have := hpost.hEq hc.1 hc.2; simp only [rh_node]; omega
            · have := hpost.lb; simp only [rh_node]; omega
          · by_cases hc : rh l2 - rh r ≤ 1 ∧ rh r - rh l2 ≤ 1
            · have := hpost.hEq hc.1 hc.2; simp only [rh_node]; omega
            · have h1 := hpost.ub; have h2 := hpost.lb; simp only [rh_node]; omega
      · -- the key is at this node
        subst hxk
        refine ⟨fun _ => ?_, fun hx => absurd (by simp [inorder]) hx⟩
        rw [insert_aux, if_neg (by omega), if_neg (by omega)]
      · -- descend right
        constructor
        · intro hx
          have hxr : x ∈ inorder r := by
            rcases (by simpa [inorder] using hx :
                x ∈ inorder l ∨ x = k ∨ x ∈ inorder r) with hc | hc | hc
            · have := hlk x hc; omega
            · omega
            · exact hc
          rw [insert_aux, if_neg (by omega), if_pos hxk, (ihr hhr hbr hor).1 hxr]
          rfl
        · intro hx
          have hxr : x ∉ inorder r := fun hc => hx (by simp [inorder, hc])
          obtain ⟨r2, heq, hh2, hb2, hio2, hlb2, hub2⟩ := (ihr hhr hbr hor).2 hxr
          obtain ⟨t2, hpost⟩ := balanceSlot_spec k h l r2 hhl hbl hh2 hb2
            (by omega) (by omega)
          refine ⟨t2, ?_, hpost.hts, hpost.bal, ?_, ?_, ?_⟩
          · rw [insert_aux, if_neg (by omega), if_pos hxk, heq]
            simp only [Option.map_some']
            rw [hpost.run fuel hf]
          · rw [hpost.ino, hio2, inorder,
              insertList_append_ge _ _ (fun y hy => by have := hlk y hy; omega) (by omega)]
          · by_cases hc : rh l - rh r2 ≤ 1 ∧ rh r2 - rh l ≤ 1
            · have := hpost.hEq hc.1 hc.2; simp only [rh_node]; omega
            · have := hpost.lb; simp only [rh_node]; omega
          · by_cases hc : rh l - rh r2 ≤ 1 ∧ rh r2 - rh l ≤ 1
            · have := hpost.hEq hc.1 hc.2; simp only [rh_node]; omega
            · have h1 := hpost.ub; have h2 := hpost.lb; simp only [rh_node]; omega

/-! ## Specification of `_remove_aux` -/

/-- Unfolding of `_remove_aux` at a non-null node. -/
theorem remove_aux_node (fuel : Nat) (x k h : Int) (l r : Node) :
    remove_aux fuel x (node l k h r) =
      if x < k then (remove_aux fuel x l).map fun l2 => balanceSlot fuel (node l2 k h r)
      else if k < x then (remove_aux fuel x r).map fun r2 => balanceSlot fuel (node l k h r2)
      else some
        (match l, r with
         | nil, _ => r
         | node a b c d, nil => node a b c d
         | node a b c d, node e f g i =>
             let p := removeLeftmost fuel (node e f g i)
             balanceSlot fuel (node (node a b c d) p.1 h p.2)) := by
  rw [remove_aux.eq_def]

/-- Removing the key at a node whose left subtree precedes it drops exactly the
first copy of that key from the in-order sequence. -/
theorem removeList_at_node (l r : Node) (k h : Int)
    (hlk : ∀ y ∈ inorder l, y < k) :
    removeList k (inorder (node l k h r)) = inorder l ++ inorder r := by
  rw [inorder, removeList_append_right _ _ (fun y hy => by have := hlk y hy; omega),
    removeList_cons_self]

/-- Splicing out the leftmost node (the in-order successor walk of
`_remove_aux`) followed by the rebalancing of the slots above it: the head of
the in-order sequence is removed, invariants are restored, and the subtree's
height shrinks by at most one. -/
theorem removeLeftmost_spec (t : Node) (hne : t ≠ nil)
    (hh : HeightsOk t) (hb : BalancedT t) (fuel : Nat) (hf : 2 ≤ fuel) :
    ∃ m t2, removeLeftmost fuel t = (m, t2) ∧
      inorder t = m :: inorder t2 ∧ HeightsOk t2 ∧ BalancedT t2 ∧
      rh t - 1 ≤ rh t2 ∧ rh t2 ≤ rh t := by
  induction t with
  | nil => exact absurd rfl hne
  | node l k h r ihl ihr =>
      rw [heightsOk_node] at hh
      obtain ⟨hhl, hhr, hlh⟩ := hh
      rw [balancedT_node] at hb
      obtain ⟨hbl, hbr, hbd1, hbd2⟩ := hb
      rcases l with _ | ⟨a, kb, hb2, c⟩
      · refine ⟨k, r, rfl, by simp [inorder], hhr, hbr, ?_, ?_⟩ <;>
          (have hnr := neg_one_le_rh r; simp only [rh_node, rh_nil]; omega)
      · obtain ⟨m, l2, heq, hio, hhl2, hbl2, hlb2, hub2⟩ :=
          ihl (by simp) hhl hbl
        obtain ⟨t2, hpost⟩ := balanceSlot_spec k h l2 r hhl2 hbl2 hhr hbr
          (by omega) (by omega)
        refine ⟨m, t2, ?_, ?_, hpost.hts, hpost.bal, ?_, ?_⟩
        · simp only [removeLeftmost, heq]
          rw [hpost.run fuel hf]
        · rw [inorder, hio, hpost.ino]
          simp
        · by_cases hc : rh l2 - rh r ≤ 1 ∧ rh r - rh l2 ≤ 1
          · have h3 := hpost.hEq hc.1 hc.2
            simp only [rh_node] at h3 hlb2 hub2 hbd1 hbd2 ⊢; omega
          · have h3 := hpost.lb
            simp only [rh_node] at h3 hlb2 hub2 hbd1 hbd2 ⊢; omega
        · by_cases hc : rh l2 - rh r ≤ 1 ∧ rh r - rh l2 ≤ 1
          · have h3 := hpost.hEq hc.1 hc.2
            simp only [rh_node] at h3 hlb2 hub2 hbd1 hbd2 ⊢; omega
          · have h3 := hpost.ub
            have h4 := hpost.lb
            simp only [rh_node] at h3 h4 hlb2 hub2 hbd1 hbd2 ⊢; omega

/-- What `_remove_aux` plus its rebalancing walk does on a valid AVL tree:
an absent key is reported (`none`, the caller throws `data_not_found`); a
present key is removed at its BST position — through the in-order-successor
swap in the two-children case — with all invariants restored and the height
shrinking by at most one. -/
theorem remove_aux_spec (x : Int) (t : Node)
    (hh : HeightsOk t) (hb : BalancedT t) (ho : Ordered t)
    (fuel : Nat) (hf : 2 ≤ fuel) :
    (x ∉ inorder t → remove_aux fuel x t = none) ∧
    (x ∈ inorder t → ∃ t2, remove_aux fuel x t = some t2 ∧
      HeightsOk t2 ∧ BalancedT t2 ∧ inorder t2 = removeList x (inorder t) ∧
      rh t - 1 ≤ rh t2 ∧ rh t2 ≤ rh t) := by
  induction t with
  | nil => exact ⟨fun _ => rfl, fun hx => by simp [inorder] at hx⟩
  | node l k h r ihl ihr =>
      rw [heightsOk_node] at hh
      obtain ⟨hhl, hhr, hlh⟩ := hh
      rw [balancedT_node] at hb
      obtain ⟨hbl, hbr, hbd1, hbd2⟩ := hb
      rw [ordered_node_iff] at ho
      obtain ⟨hol, hor, hlk, hkr⟩ := ho
      rcases lt_trichotomy x k with hxk | hxk | hxk
      · -- descend left
        constructor
        · intro hx
          have hxl : x ∉ inorder l := fun hc => hx (by simp [inorder, hc])
          rw [remove_aux_node, if_pos hxk, (ihl hhl hbl hol).1 hxl]
          rfl
        · intro hx
          have hxl : x ∈ inorder l := by
            rcases (by simpa [inorder] using hx :
                x ∈ inorder l ∨ x = k ∨ x ∈ inorder r) with hc | hc | hc
            · exact hc
            · omega
            · have := hkr x hc; omega
          obtain ⟨l2, heq, hh2, hb2, hio2, hlb2, hub2⟩ := (ihl hhl hbl hol).2 hxl
          obtain ⟨t2, hpost⟩ := balanceSlot_spec k h l2 r hh2 hb2 hhr hbr
            (by omega) (by omega)
          refine ⟨t2, ?_, hpost.hts, hpost.bal, ?_, ?_, ?_⟩
          · rw [remove_aux_node, if_pos hxk, heq]
            simp only [Option.map_some']
            rw [hpost.run fuel hf]
          · rw [hpost.ino, hio2, inorder, removeList_append_left _ _ hxl]
          · by_cases hc : rh l2 - rh r ≤ 1 ∧ rh r - rh l2 ≤ 1
            · have h3 := hpost.hEq hc.1 hc.2; simp only [rh_node]; omega
            · have h3 := hpost.lb; simp only [rh_node]; omega
          · by_cases hc : rh l2 - rh r ≤ 1 ∧ rh r - rh l2 ≤ 1
            · have h3 := hpost.hEq hc.1 hc.2; simp only [rh_node]; omega
            · have h3 := hpost.ub; have h4 := hpost.lb; simp only [rh_node]; omega
      · -- the key is at this node
        subst hxk
        refine ⟨fun hx => absurd (by simp [inorder]) hx, fun _ => ?_⟩
        rcases l with _ | ⟨la, lkb, lhb, lc⟩
        · -- no left child: splice in the right child
          refine ⟨r, ?_, hhr, hbr, ?_, ?_, ?_⟩
          · rw [remove_aux_node, if_neg (by omega), if_neg (by omega)]
          · rw [removeList_at_node _ _ _ _ hlk]
            simp [inorder]
          · have := neg_one_le_rh r; simp only [rh_node, rh_nil]; omega
          · have := neg_one_le_rh r; simp only [rh_node, rh_nil]; omega
        · rcases r with _ | ⟨re, rf, rg, ri⟩
          · -- only a left child: splice it in
            refine ⟨node la lkb lhb lc, ?_, hhl, hbl, ?_, ?_, ?_⟩
            · rw [remove_aux_node, if_neg (by omega), if_neg (by omega)]
            · rw [removeList_at_node _ _ _ _ hlk]
              simp [inorder]
            · have := neg_one_le_rh (node la lkb lhb lc)
              simp only [rh_node, rh_nil] at this ⊢; omega
            · have := neg_one_le_rh (node la lkb lhb lc)
              simp only [rh_node, rh_nil] at this ⊢; omega
          · -- two children: swap in the in-order successor and delete it
            obtain ⟨m, r2, heqRL, hioRL, hhr2, hbr2, hlbr, hubr⟩ :=
              removeLeftmost_spec (node re rf rg ri) (by simp) hhr hbr fuel hf
            obtain ⟨t2, hpost⟩ := balanceSlot_spec m h (node la lkb lhb lc) r2
              hhl hbl hhr2 hbr2 (by omega) (by omega)
            have hm1 : (removeLeftmost fuel (node re rf rg ri)).1 = m := by rw [heqRL]
            have hm2 : (removeLeftmost fuel (node re rf rg ri)).2 = r2 := by rw [heqRL]
            refine ⟨t2, ?_, hpost.hts, hpost.bal, ?_, ?_, ?_⟩
            · rw [remove_aux_node, if_neg (by omega), if_neg (by omega)]
              show some (balanceSlot fuel (node (node la lkb lhb lc)
                (removeLeftmost fuel (node re rf rg ri)).1 h
                (removeLeftmost fuel (node re rf rg ri)).2)) = some t2
              rw [hm1, hm2, hpost.run fuel hf]
            · rw [hpost.ino, removeList_at_node _ _ _ _ hlk, hioRL]
            · by_cases hc : rh (node la lkb lhb lc) - rh r2 ≤ 1 ∧
                  rh r2 - rh (node la lkb lhb lc) ≤ 1
              · have h3 := hpost.hEq hc.1 hc.2
                simp only [rh_node] at h3 hc hlbr hubr hbd1 hbd2 ⊢; omega
              · have h3 := hpost.lb
                simp only [rh_node] at h3 hc hlbr hubr hbd1 hbd2 ⊢; omega
            · by_cases hc : rh (node la lkb lhb lc) - rh r2 ≤ 1 ∧
                  rh r2 - rh (node la lkb lhb lc) ≤ 1
              · have h3 := hpost.hEq hc.1 hc.2
                simp only [rh_node] at h3 hc hlbr hubr hbd1 hbd2 ⊢; omega
              · have h3 := hpost.ub; have h4 := hpost.lb
                simp only [rh_node] at h3 h4 hc hlbr hubr hbd1 hbd2 ⊢; omega
      · -- descend right
        constructor
        · intro hx
          have hxr : x ∉ inorder r := fun hc => hx (by simp [inorder, hc])
          rw [remove_aux_node, if_neg (by omega), if_pos hxk, (ihr hhr hbr hor).1 hxr]
          rfl
        · intro hx
          have hxr : x ∈ inorder r := by
            rcases (by simpa [inorder] using hx :
                x ∈ inorder l ∨ x = k ∨ x ∈ inorder r) with hc | hc | hc
            · have := hlk x hc; omega
            · omega
            · exact hc
          obtain ⟨r2, heq, hh2, hb2, hio2, hlb2, hub2⟩ := (ihr hhr hbr hor).2 hxr
          obtain ⟨t2, hpost⟩ := balanceSlot_spec k h l r2 hhl hbl hh2 hb2
            (by omega) (by omega)
          refine ⟨t2, ?_, hpost.hts, hpost.bal, ?_, ?_, ?_⟩
          · rw [remove_aux_node, if_neg (by omega), if_pos hxk, heq]
            simp only [Option.map_some']
            rw [hpost.run fuel hf]
          · rw [hpost.ino, hio2, inorder,
              removeList_append_right _ _ (fun y hy => by have := hlk y hy; omega),
              removeList]
            rw [if_neg (by omega)]
          · by_cases hc : rh l - rh r2 ≤ 1 ∧ rh r2 - rh l ≤ 1
            · have h3 := hpost.hEq hc.1 hc.2; simp only [rh_node]; omega
            · have h3 := hpost.lb; simp only [rh_node]; omega
          · by_cases hc : rh l - rh r2 ≤ 1 ∧ rh r2 - rh l ≤ 1
            · have h3 := hpost.hEq hc.1 hc.2; simp only [rh_node]; omega
            · have h3 := hpost.ub; have h4 := hpost.lb; simp only [rh_node]; omega

/-! ## Public contracts of `tree::insert` and `tree::remove` -/

/-- The full contract of `tree::insert` on a well-formed state (helper). -/
theorem tree_insert_ok (t : Tree) (x : Int) (hw : WF t) :
    (x ∈ inorder t.root → t.insert x = Except.error Err.data_already_exists) ∧
    (x ∉ inorder t.root → ∃ u, t.insert x = Except.ok u ∧ WF u ∧
      inorder u.root = insertList x (inorder t.root) ∧
      (x ∈ inorder u.root) ∧
      u.size = t.size + 1 ∧
      u.minE = (inorder u.root).head? ∧ u.maxE = (inorder u.root).getLast?) := by
  obtain ⟨hh, hb, ho, hsz, hmin, hmax⟩ := hw
  have hf : 2 ≤ sz t.root + 2 := by omega
  constructor
  · intro hx
    have hnone := (insert_aux_spec x t.root hh hb ho (sz t.root + 2) hf).1 hx
    rw [Tree.insert, hnone]
  · intro hx
    obtain ⟨t2, heq, hh2, hb2, hio2, hlb2, hub2⟩ :=
      (insert_aux_spec x t.root hh hb ho (sz t.root + 2) hf).2 hx
    refine ⟨⟨t2, t.size + 1, leftmostKey t2, rightmostKey t2⟩, ?_, ?_, hio2, ?_, rfl,
      leftmostKey_eq_head t2, rightmostKey_eq_getLast t2⟩
    · rw [Tree.insert, heq]
    · refine ⟨hh2, hb2, ?_, ?_, rfl, rfl⟩
      · show List.Sorted (fun a b => a < b) (inorder t2)
        rw [hio2]
        exact sorted_insertList ho hx
      · show t.size + 1 = (inorder t2).length
        rw [hio2, length_insertList, hsz]
    · rw [hio2, mem_insertList]
      exact Or.inl rfl

/-- The full contract of `tree::remove` on a well-formed state (helper). -/
theorem tree_remove_ok (t : Tree) (x : Int) (hw : WF t) :
    (x ∉ inorder t.root → t.remove x = Except.error Err.data_not_found) ∧
    (x ∈ inorder t.root → ∃ u, t.remove x = Except.ok u ∧ WF u ∧
      inorder u.root = removeList x (inorder t.root) ∧
      (x ∉ inorder u.root) ∧
      u.size + 1 = t.size ∧
      (u.root = nil → u.minE = none ∧ u.maxE = none) ∧
      (u.root ≠ nil →
        u.minE = (inorder u.root).head? ∧ u.maxE = (inorder u.root).getLast?)) := by
  obtain ⟨hh, hb, ho, hsz, hmin, hmax⟩ := hw
  have hf : 2 ≤ sz t.root + 2 := by omega
  constructor
  · intro hx
    have hnone := (remove_aux_spec x t.root hh hb ho (sz t.root + 2) hf).1 hx
    rw [Tree.remove, hnone]
  · intro hx
    obtain ⟨t2, heq, hh2, hb2, hio2, hlb2, hub2⟩ :=
      (remove_aux_spec x t.root hh hb ho (sz t.root + 2) hf).2 hx
    have hlen : (inorder t2).length + 1 = (inorder t.root).length := by
      rw [hio2]; exact length_removeList _ hx
    have hso2 : List.Sorted (fun a b => a < b) (inorder t2) := by
      rw [hio2]; exact sorted_removeList ho
    refine ⟨⟨t2, t.size - 1,
      if t2 = nil then none else leftmostKey t2,
      if t2 = nil then none else rightmostKey t2⟩, ?_, ?_, hio2, ?_, ?_, ?_, ?_⟩
    · rw [Tree.remove, heq]
    · refine ⟨hh2, hb2, hso2, ?_, ?_, ?_⟩
      · show t.size - 1 = (inorder t2).length
        omega
      · show (if t2 = nil then none else leftmostKey t2) = leftmostKey t2
        split
        · rename_i hnil; rw [hnil]; rfl
        · rfl
      · show (if t2 = nil then none else rightmostKey t2) = rightmostKey t2
        split
        · rename_i hnil; rw [hnil]; rfl
        · rfl
    · rw [hio2]
      exact not_mem_removeList ho
    · show t.size - 1 + 1 = t.size
      omega
    · intro hnil
      rw [if_pos hnil, if_pos hnil]
      exact ⟨rfl, rfl⟩
    · intro hnil
      rw [if_neg hnil, if_neg hnil]
      exact ⟨leftmostKey_eq_head t2, rightmostKey_eq_getLast t2⟩

/-- Every state reachable from the empty tree by successful inserts and
removes is well formed. -/
theorem reachable_WF (t : Tree) (hr : Reachable t) : WF t := by
  induction hr with
  | empty =>
      exact ⟨trivial, trivial, List.sorted_nil, rfl, rfl, rfl⟩
  | insert t t2 x hrt heq ih =>
      by_cases hx : x ∈ inorder t.root
      · rw [(tree_insert_ok t x ih).1 hx] at heq
        cases heq
      · obtain ⟨u, hequ, hwfu, _⟩ := (tree_insert_ok t x ih).2 hx
        rw [hequ] at heq
        cases heq
        exact hwfu
  | remove t t2 x hrt heq ih =>
      by_cases hx : x ∈ inorder t.root
      · obtain ⟨u, hequ, hwfu, _⟩ := (tree_remove_ok t x ih).2 hx
        rw [hequ] at heq
        cases heq
        exact hwfu
      · rw [(tree_remove_ok t x ih).1 hx] at heq
        cases heq

/-- C2: inserting a present key throws `data_already_exists` (and, the
operation having performed no structural edit, the tree is unchanged);
inserting an absent key succeeds, adds exactly that key, increments `__size`,
and recomputes `__min_element` / `__max_element` as the leftmost and rightmost
nodes, preserving well-formedness. -/
theorem tree_insert_contract (t : Tree) (x : Int) (hw : WF t) :
    (x ∈ inorder t.root → t.insert x = Except.error Err.data_already_exists) ∧
    (x ∉ inorder t.root → ∃ u, t.insert x = Except.ok u ∧ WF u ∧
      inorder u.root = insertList x (inorder t.root) ∧
      (x ∈ inorder u.root) ∧
      u.size = t.size + 1 ∧
      u.minE = (inorder u.root).head? ∧ u.maxE = (inorder u.root).getLast?) :=
  tree_insert_ok t x hw

/-- C3: removing an absent key throws `data_not_found` (tree unchanged);
removing a present key succeeds — with the in-order-successor swap in the
two-children case — decrements `__size`, and recomputes or clears
`__min_element` / `__max_element`, preserving well-formedness. -/
theorem tree_remove_contract (t : Tree) (x : Int) (hw : WF t) :
    (x ∉ inorder t.root → t.remove x = Except.error Err.data_not_found) ∧
    (x ∈ inorder t.root → ∃ u, t.remove x = Except.ok u ∧ WF u ∧
      inorder u.root = removeList x (inorder t.root) ∧
      (x ∉ inorder u.root) ∧
      u.size + 1 = t.size ∧
      (u.root = nil → u.minE = none ∧ u.maxE = none) ∧
      (u.root ≠ nil →
        u.minE = (inorder u.root).head? ∧ u.maxE = (inorder u.root).getLast?)) :=
  tree_remove_ok t x hw

/-! ## The almost-full tree built by the union is balanced (real heights) -/

theorem pow_log2_le (n : Nat) (hn : n ≠ 0) : 2 ^ Nat.log2 n ≤ n := by
  rw [Nat.log2_eq_log_two]
  exact Nat.pow_log_le_self 2 hn

theorem lt_pow_log2_succ (n : Nat) : n < 2 ^ (Nat.log2 n + 1) := by
  rw [Nat.log2_eq_log_two]
  exact Nat.lt_pow_succ_log_self (by omega) n

theorem log2_eq_of_bounds {n a : Nat} (h1 : 2 ^ a ≤ n) (h2 : n < 2 ^ (a + 1)) :
    Nat.log2 n = a := by
  rw [Nat.log2_eq_log_two]
  exact Nat.log_eq_of_pow_le_of_lt_pow h1 h2

/-- Size bookkeeping of the split at a node of the builder, for `n ≥ 2`:
the left part has between `2^(h-1)` and `2^h - 1` elements (hence real height
`tree_height n - 1`), and the right part has either `2^(h-1) - 1` or between
`2^(h-1)` and `2^h - 1` elements. -/
theorem left_size_bounds (n : Nat) (hn : 2 ≤ n) :
    2 ^ (tree_height n - 1) ≤ left_size n ∧
    left_size n ≤ 2 ^ (tree_height n - 1) * 2 - 1 ∧
    left_size n < n ∧
    (n - left_size n - 1 = 2 ^ (tree_height n - 1) - 1 ∨
     (2 ^ (tree_height n - 1) ≤ n - left_size n - 1 ∧
      n - left_size n - 1 ≤ 2 ^ (tree_height n - 1) * 2 - 1)) := by
  have hth1 : 1 ≤ tree_height n := by
    by_contra hc
    have h0 : tree_height n = 0 := by omega
    have h2 : n < 2 ^ (tree_height n + 1) := by
      rw [tree_height_eq]; exact lt_pow_log2_succ n
    rw [h0] at h2
    simp at h2
    omega
  have hpw1 : 2 ^ tree_height n ≤ n := by
    rw [tree_height_eq]; exact pow_log2_le n (by omega)
  have hpw2 : n < 2 ^ (tree_height n + 1) := by
    rw [tree_height_eq]; exact lt_pow_log2_succ n
  have hsplit : 2 ^ tree_height n = 2 ^ (tree_height n - 1) * 2 := by
    have h9 : 2 ^ ((tree_height n - 1) + 1) = 2 ^ (tree_height n - 1) * 2 := pow_succ 2 _
    rw [show (tree_height n - 1) + 1 = tree_height n from by omega] at h9
    exact h9
  have hsplit2 : 2 ^ (tree_height n + 1) = 2 ^ tree_height n * 2 := pow_succ 2 _
  have hppos : 1 ≤ 2 ^ (tree_height n - 1) := Nat.one_le_two_pow
  have hdef : tree_height n = Nat.log2 n := tree_height_eq n
  unfold left_size tree_leaves
  omega

set_option maxHeartbeats 800000 in
/-- The structure built by `_create_almost_full_tree` is balanced on real
heights (despite its broken cached heights), with real height
`floor(log2 n)`. -/
theorem create_aft_spec : ∀ (fuel : Nat) (l : List Int), l.length ≤ fuel →
    BalancedT (create_almost_full_tree fuel l) ∧
    rh (create_almost_full_tree fuel l) =
      (if l.length = 0 then (-1 : Int) else (Nat.log2 l.length : Int)) := by
  intro fuel
  induction fuel with
  | zero =>
      intro l hl
      have h0 : l = [] := List.length_eq_zero.1 (by omega)
      subst h0
      exact ⟨trivial, by simp [create_almost_full_tree, rh]⟩
  | succ f ih =>
      intro l hl
      cases l with
      | nil => exact ⟨trivial, by simp [create_almost_full_tree, rh]⟩
      | cons x xs =>
          rw [create_almost_full_tree]
          by_cases h1 : (x :: xs).length = 1
          · rw [if_pos h1, h1]
            refine ⟨⟨trivial, trivial, by simp [rh], by simp [rh]⟩, ?_⟩
            simp [rh, Nat.log2]
          · rw [if_neg h1]
            have hn2 : 2 ≤ (x :: xs).length := by
              have := List.length_pos.2 (List.cons_ne_nil x xs)
              omega
            obtain ⟨hls1, hls2, hlsn, hrs⟩ := left_size_bounds (x :: xs).length hn2
            have hth1 : 1 ≤ tree_height (x :: xs).length := by
              by_contra hc
              have h0 : tree_height (x :: xs).length = 0 := by omega
              have hpw2 : (x :: xs).length < 2 ^ (tree_height (x :: xs).length + 1) := by
                rw [tree_height_eq]; exact lt_pow_log2_succ (x :: xs).length
              have h2 : (2 : Nat) ^ (0 + 1) = 2 := by norm_num
              rw [h0, h2] at hpw2
              omega
            have hpw1 : 2 ^ tree_height (x :: xs).length ≤ (x :: xs).length := by
              rw [tree_height_eq]; exact pow_log2_le (x :: xs).length (by omega)
            have hpw2 : (x :: xs).length < 2 ^ (tree_height (x :: xs).length + 1) := by
              rw [tree_height_eq]; exact lt_pow_log2_succ (x :: xs).length
            have hsplit : 2 ^ tree_height (x :: xs).length =
                2 ^ (tree_height (x :: xs).length - 1) * 2 := by
              have h9 : 2 ^ ((tree_height (x :: xs).length - 1) + 1) =
                  2 ^ (tree_height (x :: xs).length - 1) * 2 := pow_succ 2 _
              rw [show (tree_height (x :: xs).length - 1) + 1 =
                  tree_height (x :: xs).length from by omega] at h9
              exact h9
            have htake : ((x :: xs).take (left_size (x :: xs).length)).length =
                left_size (x :: xs).length := by
              rw [List.length_take]
              omega
            have hdrop : ((x :: xs).drop (left_size (x :: xs).length + 1)).length =
                (x :: xs).length - left_size (x :: xs).length - 1 := by
              rw [List.length_drop]
              omega
            obtain ⟨hbL, hhL⟩ := ih ((x :: xs).take (left_size (x :: xs).length))
              (by rw [htake]; omega)
            obtain ⟨hbR, hhR⟩ := ih ((x :: xs).drop (left_size (x :: xs).length + 1))
              (by rw [hdrop]; omega)
            rw [htake] at hhL
            rw [hdrop] at hhR
            have hppos : 1 ≤ 2 ^ (tree_height (x :: xs).length - 1) := Nat.one_le_two_pow
            have hlogL : Nat.log2 (left_size (x :: xs).length) =
                tree_height (x :: xs).length - 1 := by
              refine log2_eq_of_bounds hls1 ?_
              have h2 : tree_height (x :: xs).length - 1 + 1 =
                  tree_height (x :: xs).length := by omega
              rw [h2]
              omega
            have hLne : left_size (x :: xs).length ≠ 0 := by omega
            rw [if_neg hLne, hlogL] at hhL
            -- the height of the right part, by cases on the split
            rcases hrs with hrs | hrs
            · -- right part has 2^(h-1) - 1 elements (a full tree one level lower)
              by_cases hth2 : 2 ≤ tree_height (x :: xs).length
              · have hrne : (x :: xs).length - left_size (x :: xs).length - 1 ≠ 0 := by
                  have h4 : (4 : Nat) ≤ 2 ^ tree_height (x :: xs).length := by
                    have h5 : 2 ^ (2 : Nat) ≤ 2 ^ tree_height (x :: xs).length :=
                      Nat.pow_le_pow_right (by omega) hth2
                    simpa using h5
                  omega
                have hsplit3 : 2 ^ (tree_height (x :: xs).length - 1) =
                    2 ^ (tree_height (x :: xs).length - 2) * 2 := by
                  have h9 : 2 ^ ((tree_height (x :: xs).length - 2) + 1) =
                      2 ^ (tree_height (x :: xs).length - 2) * 2 := pow_succ 2 _
                  rw [show (tree_height (x :: xs).length - 2) + 1 =
                      tree_height (x :: xs).length - 1 from by omega] at h9
                  exact h9
                have hppos2 : 1 ≤ 2 ^ (tree_height (x :: xs).length - 2) :=
                  Nat.one_le_two_pow
                have hlogR : Nat.log2 ((x :: xs).length - left_size (x :: xs).length - 1) =
                    tree_height (x :: xs).length - 2 := by
                  refine log2_eq_of_bounds (by omega) ?_
                  have h2 : tree_height (x :: xs).length - 2 + 1 =
                      tree_height (x :: xs).length - 1 := by omega
                  rw [h2]
                  omega
                rw [if_neg hrne, hlogR] at hhR
                refine ⟨⟨hbL, hbR, ?_, ?_⟩, ?_⟩
                · rw [hhL, hhR]; omega
                · rw [hhL, hhR]; omega
                · rw [rh_node, hhL, hhR]
                  have hthdef : tree_height (x :: xs).length = Nat.log2 (x :: xs).length := tree_height_eq _
                  omega
              · -- tree_height = 1: the right part is empty
                have hth : tree_height (x :: xs).length = 1 := by omega
                have hrz : (x :: xs).length - left_size (x :: xs).length - 1 = 0 := by
                  rw [hth] at hrs
                  simpa using hrs
                rw [if_pos hrz] at hhR
                refine ⟨⟨hbL, hbR, ?_, ?_⟩, ?_⟩
                · rw [hhL, hhR, hth]; simp
                · rw [hhL, hhR, hth]; simp
                · rw [rh_node, hhL, hhR]
                  have hthdef : tree_height (x :: xs).length = Nat.log2 (x :: xs).length := tree_height_eq _
                  omega
            · -- right part in [2^(h-1), 2^h - 1]
              have hrne : (x :: xs).length - left_size (x :: xs).length - 1 ≠ 0 := by
                omega
              have hlogR : Nat.log2 ((x :: xs).length - left_size (x :: xs).length - 1) =
                  tree_height (x :: xs).length - 1 := by
                refine log2_eq_of_bounds hrs.1 ?_
                have h2 : tree_height (x :: xs).length - 1 + 1 =
                    tree_height (x :: xs).length := by omega
                rw [h2]
                omega
              rw [if_neg hrne, hlogR] at hhR
              refine ⟨⟨hbL, hbR, ?_, ?_⟩, ?_⟩
              · rw [hhL, hhR]; omega
              · rw [hhL, hhR]; omega
              · rw [rh_node, hhL, hhR]
                have hthdef : tree_height (x :: xs).length = Nat.log2 (x :: xs).length := tree_height_eq _
                omega

/-! ## C1, C4, C6, C7 -/

/-- C1 (amended): every state reachable from the empty tree by inserts and
removes satisfies the AVL balance inequality on real heights at every node,
and so does every tree returned by the copying `unite`. -/
theorem reachable_and_unite_copy_balanced :
    (∀ t : Tree, Reachable t → BalancedT t.root) ∧
    (∀ t1 t2 : Tree, BalancedT (Tree.unite_copy t1 t2).root) := by
  constructor
  · intro t hr
    exact (reachable_WF t hr).2.1
  · intro t1 t2
    rw [Tree.unite_copy]
    split
    · exact trivial
    · exact (create_aft_spec _ _ (le_refl _)).1

/-- Witness: the balance statement applied to a concrete reachable state and a
concrete union of two singleton trees. -/
theorem reachable_and_unite_copy_balanced_witness :
    BalancedT (Tree.mk (node nil 5 0 nil) 1 (some 5) (some 5)).root ∧
    BalancedT (Tree.unite_copy (Tree.mk (node nil 1 0 nil) 1 (some 1) (some 1))
      (Tree.mk (node nil 2 0 nil) 1 (some 2) (some 2))).root :=
  ⟨reachable_and_unite_copy_balanced.1 (Tree.mk (node nil 5 0 nil) 1 (some 5) (some 5))
      (Reachable.insert emptyT (Tree.mk (node nil 5 0 nil) 1 (some 5) (some 5)) 5
        Reachable.empty rfl),
    reachable_and_unite_copy_balanced.2 (Tree.mk (node nil 1 0 nil) 1 (some 1) (some 1))
      (Tree.mk (node nil 2 0 nil) 1 (some 2) (some 2))⟩

/-- C4: the almost-full-tree builder used by both `unite` overloads sets the
cached height of an internal node to the SUM of its children's cached heights
instead of `1 + max`: uniting the singleton trees `{1}` and `{2}` yields a
root whose cached `__height` is 0, while `1 + max(height(left), height(right))`
is 1 (the root's real height), so invariant (c) fails on the returned tree. -/
theorem unite_height_cache_bug :
    ∃ t1 t2 : Tree, emptyT.insert 1 = Except.ok t1 ∧ emptyT.insert 2 = Except.ok t2 ∧
      ch (Tree.unite_copy t1 t2).root = 0 ∧
      1 + max (ch (Node.left (Tree.unite_copy t1 t2).root))
        (ch (Node.right (Tree.unite_copy t1 t2).root)) = 1 ∧
      rh (Tree.unite_copy t1 t2).root = 1 ∧
      ¬ HeightsOk (Tree.unite_copy t1 t2).root := by
  refine ⟨Tree.mk (node nil 1 0 nil) 1 (some 1) (some 1),
    Tree.mk (node nil 2 0 nil) 1 (some 2) (some 2), rfl, rfl, ?_, ?_, ?_, ?_⟩ <;> decide

/-- C7: the exact tie-break of `_balance_to_root`.  At any node whose children
have balance factors in `[-1, 1]` (as every visited ancestor's children do,
their subtrees being already rebalanced): with factor at least 2 an LL
rebalance is selected iff the left child's factor is at least 0 and an LR
rebalance otherwise; with factor at most -2 an RR rebalance is selected iff
the right child's factor is at most 0 and an RL rebalance otherwise; LL/RR are
the single right/left rotations. -/
theorem rotation_tiebreak (t : Node)
    (hl1 : -1 ≤ get_balance_factor t.left) (hl2 : get_balance_factor t.left ≤ 1)
    (hr1 : -1 ≤ get_balance_factor t.right) (hr2 : get_balance_factor t.right ≤ 1) :
    (2 ≤ get_balance_factor t →
      ((rotKind t = some RKind.LL ↔ 0 ≤ get_balance_factor t.left) ∧
       (rotKind t = some RKind.LR ↔ get_balance_factor t.left = -1))) ∧
    (get_balance_factor t ≤ -2 →
      ((rotKind t = some RKind.RR ↔ get_balance_factor t.right ≤ 0) ∧
       (rotKind t = some RKind.RL ↔ get_balance_factor t.right = 1))) ∧
    rotate_LL = rotate_right ∧ rotate_RR = rotate_left := by
  refine ⟨?_, ?_, rfl, rfl⟩
  · intro h2
    by_cases hL : 0 ≤ get_balance_factor t.left
    · have hv : rotKind t = some RKind.LL := by rw [rotKind, if_pos ⟨h2, hL⟩]
      rw [hv]
      exact ⟨⟨fun _ => hL, fun _ => rfl⟩,
        ⟨fun hE => by simp at hE, fun hc => absurd hc (by omega)⟩⟩
    · have hlm1 : get_balance_factor t.left = -1 := by omega
      have hv : rotKind t = some RKind.LR := by
        rw [rotKind, if_neg (fun hc => hL hc.2), if_pos ⟨h2, hlm1⟩]
      rw [hv]
      exact ⟨⟨fun hE => by simp at hE, fun hc => absurd hc hL⟩,
        ⟨fun _ => hlm1, fun _ => rfl⟩⟩
  · intro h2
    have hno : ¬ 2 ≤ get_balance_factor t := by omega
    by_cases hR : get_balance_factor t.right = 1
    · have hv : rotKind t = some RKind.RL := by
        rw [rotKind, if_neg (fun hc => hno hc.1), if_neg (fun hc => hno hc.1),
          if_pos ⟨h2, hR⟩]
      rw [hv]
      exact ⟨⟨fun hE => by simp at hE, fun hc => absurd hR (by omega)⟩,
        ⟨fun _ => hR, fun _ => rfl⟩⟩
    · have hR0 : get_balance_factor t.right ≤ 0 := by omega
      have hv : rotKind t = some RKind.RR := by
        rw [rotKind, if_neg (fun hc => hno hc.1), if_neg (fun hc => hno hc.1),
          if_neg (fun hc => hR hc.2), if_pos ⟨h2, hR0⟩]
      rw [hv]
      exact ⟨⟨fun _ => hR0, fun _ => rfl⟩,
        ⟨fun hE => by simp at hE, fun hc => absurd hc hR⟩⟩

/-- Witness: at a concrete left-heavy node with left-child factor 1 the LL
branch is selected. -/
theorem rotation_tiebreak_witness :
    rotKind (node (node (node nil 0 0 nil) 1 1 nil) 2 2 nil) = some RKind.LL :=
  ((rotation_tiebreak (node (node (node nil 0 0 nil) 1 1 nil) 2 2 nil)
    (by decide) (by decide) (by decide) (by decide)).1 (by decide)).1.2 (by decide)

/-- C6 (supporting evaluation): the locate walk `_search_place_aux` — the part
of `search` that is shared with insert and remove and actually typechecks —
finds an inserted key and misses a removed one; the public `search` wrapper
itself cannot compile when instantiated (it returns `ptr->__data` where the
declared type is `_Node*`). -/
theorem search_walk_after_insert_remove :
    ∃ t u : Tree, emptyT.insert 5 = Except.ok t ∧ searchFound 5 t.root = true ∧
      t.remove 5 = Except.ok u ∧ searchFound 5 u.root = false := by
  exact ⟨Tree.mk (node nil 5 0 nil) 1 (some 5) (some 5),
    Tree.mk nil 0 none none, rfl, by decide, rfl, by decide⟩

/-! ## The ascending iterator (`_iterator::operator++`), modelled with an
explicit parent context

The C++ iterator holds a node pointer and climbs via `__parent` links.  A
position in the tree is modelled as the focused subtree plus the chain of
ancestors (each crumb recording on which side the focus hangs, the parent's
data and cached height, and the parent's other subtree), which represents the
same information the parent pointers give. -/

/-- One ancestor record of an iterator position. -/
inductive Crumb where
  | downLeft (k h : Int) (r : Node) : Crumb
  | downRight (k h : Int) (l : Node) : Crumb

/-- `_get_left_most_node`: descend into left children, recording crumbs. -/
def leftmostZ : Node → List Crumb → Node × List Crumb
  | nil, cs => (nil, cs)
  | node nil k h r, cs => (node nil k h r, cs)
  | node (node a b c d) k h r, cs =>
      leftmostZ (node a b c d) (Crumb.downLeft k h r :: cs)

/-- The climb loop of `operator++`: go up while arriving from a right child;
stop at the first parent reached from its left child; `none` at the top. -/
def climb : Node → List Crumb → Option (Node × List Crumb)
  | _, [] => none
  | f, Crumb.downRight k h l :: cs => climb (node l k h f) cs
  | f, Crumb.downLeft k h r :: cs => some (node f k h r, cs)

/-- `operator++`: to the right child's leftmost descendant when a right child
exists, otherwise climb until arriving from a left child. -/
def succZ : Node × List Crumb → Option (Node × List Crumb)
  | (nil, _) => none
  | (node l k h nil, cs) => climb (node l k h nil) cs
  | (node l k h (node e f g i), cs) =>
      some (leftmostZ (node e f g i) (Crumb.downRight k h l :: cs))

/-- Keys yielded by iterating from a position (with fuel). -/
def iterSeq : Nat → Option (Node × List Crumb) → List Int
  | 0, _ => []
  | _, none => []
  | _ + 1, some (nil, _) => []
  | n + 1, some (node l k h r, cs) => k :: iterSeq n (succZ (node l k h r, cs))

/-- `begin()`: position at the leftmost node of the root (the end position for
an empty tree). -/
def beginZ : Node → Option (Node × List Crumb)
  | nil => none
  | node a b c d => some (leftmostZ (node a b c d) [])

/-- The full ascending iteration of a tree. -/
def iterKeys (t : Node) : List Int := iterSeq (sz t) (beginZ t)

/-- Keys still to be visited once the focused subtree is exhausted. -/
def restKeys : List Crumb → List Int
  | [] => []
  | Crumb.downLeft k _ r :: cs => k :: (inorder r ++ restKeys cs)
  | Crumb.downRight _ _ _ :: cs => restKeys cs

/-- Keys still to be visited from a position (the focus's left subtree has
already been visited when the iterator points at the focus root). -/
def toVisit : Node × List Crumb → List Int
  | (nil, cs) => restKeys cs
  | (node _ k _ r, cs) => k :: (inorder r ++ restKeys cs)

theorem leftmostZ_toVisit : ∀ (t : Node) (cs : List Crumb), t ≠ nil →
    (leftmostZ t cs).1 ≠ nil ∧
    toVisit (leftmostZ t cs) = inorder t ++ restKeys cs := by
  intro t
  induction t with
  | nil => intro cs hc; exact absurd rfl hc
  | node l k h r ihl ihr =>
      intro cs _
      cases l with
      | nil =>
          refine ⟨by simp [leftmostZ], ?_⟩
          rw [leftmostZ, toVisit, inorder]
          simp [inorder]
      | node a b c d =>
          rw [leftmostZ]
          obtain ⟨h1, h2⟩ := ihl (Crumb.downLeft k h r :: cs) (by simp)
          refine ⟨h1, ?_⟩
          rw [h2, restKeys]
          simp [inorder]

theorem climb_spec : ∀ (cs : List Crumb) (f : Node),
    (climb f cs = none → restKeys cs = []) ∧
    (∀ z, climb f cs = some z → z.1 ≠ nil ∧ toVisit z = restKeys cs) := by
  intro cs
  induction cs with
  | nil => exact fun f => ⟨fun _ => rfl, fun z hz => by simp [climb] at hz⟩
  | cons c cs ih =>
      intro f
      cases c with
      | downLeft k h r =>
          refine ⟨fun hc => by simp [climb] at hc, fun z hz => ?_⟩
          rw [climb] at hz
          cases hz
          exact ⟨by simp, rfl⟩
      | downRight k h l =>
          rw [climb, restKeys]
          exact ih (node l k h f)

theorem succZ_spec (l r : Node) (k h : Int) (cs : List Crumb) :
    (succZ (node l k h r, cs) = none → inorder r ++ restKeys cs = []) ∧
    (∀ z2, succZ (node l k h r, cs) = some z2 →
      z2.1 ≠ nil ∧ toVisit z2 = inorder r ++ restKeys cs) := by
  cases r with
  | nil =>
      rw [succZ]
      constructor
      · intro hn
        rw [inorder, List.nil_append]
        exact (climb_spec cs (node l k h nil)).1 hn
      · intro z2 hz
        rw [inorder, List.nil_append]
        exact (climb_spec cs (node l k h nil)).2 z2 hz
  | node e f g i =>
      rw [succZ]
      refine ⟨fun hc => by simp at hc, fun z2 hz => ?_⟩
      cases hz
      obtain ⟨h1, h2⟩ := leftmostZ_toVisit (node e f g i)
        (Crumb.downRight k h l :: cs) (by simp)
      exact ⟨h1, by rw [h2, restKeys]⟩

theorem iterSeq_toVisit : ∀ (n : Nat) (z : Node × List Crumb), z.1 ≠ nil →
    (toVisit z).length = n → iterSeq n (some z) = toVisit z := by
  intro n
  induction n with
  | zero =>
      rintro ⟨t, cs⟩ hne hlen
      cases t with
      | nil => exact absurd rfl hne
      | node l k h r => simp [toVisit] at hlen
  | succ n ih =>
      rintro ⟨t, cs⟩ hne hlen
      cases t with
      | nil => exact absurd rfl hne
      | node l k h r =>
          rw [iterSeq, toVisit]
          rw [toVisit] at hlen
          simp only [List.length_cons] at hlen
          cases hsz : succZ (node l k h r, cs) with
          | none =>
              have hempty := (succZ_spec l r k h cs).1 hsz
              rw [hempty]
              rw [hempty] at hlen
              simp at hlen
              subst hlen
              rfl
          | some z2 =>
              obtain ⟨h1, h2⟩ := (succZ_spec l r k h cs).2 z2 hsz
              rw [ih z2 h1 (by rw [h2]; omega)]
              rw [h2]

/-- The ascending iteration — starting at the leftmost node and advancing by
the `operator++` rule — yields exactly the in-order key sequence. -/
theorem iterKeys_eq_inorder (t : Node) : iterKeys t = inorder t := by
  cases t with
  | nil => rfl
  | node l k h r =>
      rw [iterKeys, beginZ]
      obtain ⟨h1, h2⟩ := leftmostZ_toVisit (node l k h r) [] (by simp)
      rw [restKeys, List.append_nil] at h2
      rw [iterSeq_toVisit (sz (node l k h r)) _ h1 (by rw [h2, ← sz_eq_length]), h2]

/-- C8: for every reachable tree, the iterator's traversal (leftmost start,
right-subtree-leftmost / climb-until-from-left advance) is finite, strictly
increasing, and contains exactly the keys of the tree; its length is the
tree's size. -/
theorem iteration_spec (t : Tree) (hr : Reachable t) :
    iterKeys t.root = inorder t.root ∧
    List.Sorted (· < ·) (iterKeys t.root) ∧
    (∀ x, x ∈ iterKeys t.root ↔ x ∈ inorder t.root) ∧
    (iterKeys t.root).length = t.size := by
  have hwf := reachable_WF t hr
  have he := iterKeys_eq_inorder t.root
  refine ⟨he, ?_, fun x => by rw [he], ?_⟩
  · rw [he]
    exact hwf.2.2.1
  · rw [he]
    exact (hwf.2.2.2.1).symm

/-- Witness: the iteration statement applied to the concrete reachable tree
`{1, 2}`. -/
theorem iteration_spec_witness :
    iterKeys (node nil 1 1 (node nil 2 0 nil)) = [1, 2] := by
  have h := (iteration_spec
    (Tree.mk (node nil 1 1 (node nil 2 0 nil)) 2 (some 1) (some 2))
    (Reachable.insert (Tree.mk (node nil 1 0 nil) 1 (some 1) (some 1))
      (Tree.mk (node nil 1 1 (node nil 2 0 nil)) 2 (some 1) (some 2)) 2
      (Reachable.insert emptyT (Tree.mk (node nil 1 0 nil) 1 (some 1) (some 1)) 1
        Reachable.empty rfl) rfl)).1
  rw [show (Tree.mk (node nil 1 1 (node nil 2 0 nil)) 2 (some 1) (some 2)).root =
    node nil 1 1 (node nil 2 0 nil) from rfl] at h
  rw [h]
  rfl

/-! ## The initializer-list constructor (C9, C10) -/

/-- C10: constructing from an empty batch fails: the insertion loop runs zero
times and the constructor then calls `_find_min`, which throws
`data_not_found` on the empty tree. -/
theorem batch_ctor_empty_fails :
    treeFromList [] = Except.error Err.data_not_found := rfl

/-- C9 counterexample: the empty batch is duplicate-free, yet construction
does not succeed — it throws `data_not_found` from `_find_min`. -/
theorem batch_ctor_empty_nodup_cex :
    List.Nodup ([] : List Int) ∧ treeFromList [] = Except.error Err.data_not_found :=
  ⟨List.nodup_nil, rfl⟩

/-- The constructor loop over `_insert_aux`: it succeeds exactly on batches
that are duplicate-free (relative to the accumulator), producing a valid AVL
tree holding the accumulated keys. -/
theorem treeFromListAux_spec : ∀ (l : List Int) (acc : Node),
    HeightsOk acc → BalancedT acc → Ordered acc →
    ((l.Nodup ∧ ∀ x ∈ l, x ∉ inorder acc) →
      ∃ root, treeFromListAux l acc = some root ∧
        HeightsOk root ∧ BalancedT root ∧ Ordered root ∧
        (∀ y, y ∈ inorder root ↔ y ∈ inorder acc ∨ y ∈ l) ∧
        (inorder root).length = (inorder acc).length + l.length) ∧
    (¬ (l.Nodup ∧ ∀ x ∈ l, x ∉ inorder acc) → treeFromListAux l acc = none) := by
  intro l
  induction l with
  | nil =>
      intro acc hh hb ho
      constructor
      · intro _
        exact ⟨acc, rfl, hh, hb, ho, fun y => by simp, by simp⟩
      · intro hc
        exact absurd ⟨List.nodup_nil, by simp⟩ hc
  | cons x xs ih =>
      intro acc hh hb ho
      by_cases hx : x ∈ inorder acc
      · have hnone := (insert_aux_spec x acc hh hb ho (sz acc + 2) (by omega)).1 hx
        constructor
        · rintro ⟨_, hall⟩
          exact absurd hx (hall x (by simp))
        · intro _
          rw [treeFromListAux, hnone]
      · obtain ⟨acc2, heq, hh2, hb2, hio2, _, _⟩ :=
          (insert_aux_spec x acc hh hb ho (sz acc + 2) (by omega)).2 hx
        have ho2 : Ordered acc2 := by
          show List.Sorted (fun a b => a < b) (inorder acc2)
          rw [hio2]
          exact sorted_insertList ho hx
        have hmem2 : ∀ y, y ∈ inorder acc2 ↔ y = x ∨ y ∈ inorder acc := by
          intro y
          rw [hio2]
          exact mem_insertList x y (inorder acc)
        have hlen2 : (inorder acc2).length = (inorder acc).length + 1 := by
          rw [hio2, length_insertList]
        constructor
        · rintro ⟨hnd, hall⟩
          rw [List.nodup_cons] at hnd
          obtain ⟨root, hre, hrh, hrb, hro, hrm, hrl⟩ := (ih acc2 hh2 hb2 ho2).1
            ⟨hnd.2, fun y hy => by
              rw [hmem2]
              push_neg
              exact ⟨fun hyx => hnd.1 (hyx ▸ hy), hall y (by simp [hy])⟩⟩
          refine ⟨root, ?_, hrh, hrb, hro, ?_, ?_⟩
          · rw [treeFromListAux, heq]
            show treeFromListAux xs acc2 = some root
            exact hre
          · intro y
            rw [hrm y, hmem2 y]
            simp
            tauto
          · rw [hrl, hlen2, List.length_cons]
            omega
        · intro hc
          rw [treeFromListAux, heq]
          show treeFromListAux xs acc2 = none
          refine (ih acc2 hh2 hb2 ho2).2 (fun hc2 => hc ⟨?_, ?_⟩)
          · rw [List.nodup_cons]
            refine ⟨fun hxxs => ?_, hc2.1⟩
            have := hc2.2 x hxxs
            rw [hmem2] at this
            push_neg at this
            exact this.1 rfl
          · intro y hy
            rcases List.mem_cons.1 hy with rfl | hy2
            · exact hx
            · have := hc2.2 y hy2
              rw [hmem2] at this
              push_neg at this
              exact this.2

/-- C9 (amended): a batch containing a duplicate aborts construction with
`bad_input` (`InvalidArgument`) and no tree is produced; every NONEMPTY
duplicate-free batch constructs a well-formed tree holding exactly the batch's
keys whose size is the batch's length.  (The empty batch, although
duplicate-free, fails with `data_not_found`; see the counterexample.) -/
theorem batch_ctor_spec (l : List Int) :
    (¬ l.Nodup → treeFromList l = Except.error Err.bad_input) ∧
    (l ≠ [] → l.Nodup → ∃ t, treeFromList l = Except.ok t ∧ WF t ∧
      t.size = l.length ∧ (∀ y, y ∈ inorder t.root ↔ y ∈ l)) := by
  constructor
  · intro hnd
    have hnone := (treeFromListAux_spec l nil trivial trivial List.sorted_nil).2
      (fun hc => hnd hc.1)
    rw [treeFromList, hnone]
  · intro hne hnd
    obtain ⟨root, hre, hrh, hrb, hro, hrm, hrl⟩ :=
      (treeFromListAux_spec l nil trivial trivial List.sorted_nil).1
        ⟨hnd, fun x _ => by simp [inorder]⟩
    have hrlen : (inorder root).length = l.length := by
      rw [hrl]; simp [inorder]
    have hrne : root ≠ nil := by
      intro hc
      subst hc
      rw [show inorder nil = [] from rfl] at hrlen
      simp at hrlen
      exact hne (List.length_eq_zero.1 hrlen.symm)
    rcases root with _ | ⟨a, b, c, d⟩
    · exact absurd rfl hrne
    refine ⟨Tree.mk (node a b c d) l.length
      (leftmostKey (node a b c d)) (rightmostKey (node a b c d)), ?_, ?_, rfl, ?_⟩
    · rw [treeFromList, hre]
    · exact ⟨hrh, hrb, hro, hrlen.symm, rfl, rfl⟩
    · intro y
      rw [hrm y]
      simp [inorder]

/-! ## A heap model of the consuming `unite(tree&&, tree&&)`

The consuming overload reuses the input trees' nodes in place, so node
identity and stale pointers matter; a functional tree cannot express the
aliasing it creates.  We model the store as an association list from node
addresses to records with the five fields of `_Node` (`__data`, `__height`,
`__parent`, `__left`, `__right`) and translate the private `_iterator` walk,
the merge loop and `_create_almost_full_tree_in_place` over it.  All walks
carry fuel; any fuel larger than the number of steps taken reproduces the
loops. -/

/-- The five fields of `_Node`. -/
structure HNode where
  hdata : Int
  hhgt : Int
  hpar : Option Nat
  hlft : Option Nat
  hrgt : Option Nat
deriving DecidableEq

/-- The store: node address to node record. -/
def Heap : Type := List (Nat × HNode)

/-- Dereference. -/
def hGet : Heap → Nat → Option HNode
  | [], _ => none
  | (j, n) :: rest, i => if i = j then some n else hGet rest i

/-- Overwrite a record. -/
def hSet : Heap → Nat → HNode → Heap
  | [], _, _ => []
  | (j, n) :: rest, i, m => if i = j then (j, m) :: rest else (j, n) :: hSet rest i m

/-- Field reads (with the null conventions of the source: data of null unused,
height of null read as `-1`). -/
def hLft (h : Heap) (i : Nat) : Option Nat :=
  match hGet h i with
  | some n => n.hlft
  | none => none

def hRgt (h : Heap) (i : Nat) : Option Nat :=
  match hGet h i with
  | some n => n.hrgt
  | none => none

def hPar (h : Heap) (i : Nat) : Option Nat :=
  match hGet h i with
  | some n => n.hpar
  | none => none

def hData (h : Heap) (i : Nat) : Int :=
  match hGet h i with
  | some n => n.hdata
  | none => 0

def hHgt (h : Heap) (i : Nat) : Int :=
  match hGet h i with
  | some n => n.hhgt
  | none => -1

/-- Field writes. -/
def hSetLft (h : Heap) (i : Nat) (v : Option Nat) : Heap :=
  match hGet h i with
  | some n => hSet h i (HNode.mk n.hdata n.hhgt n.hpar v n.hrgt)
  | none => h

def hSetRgt (h : Heap) (i : Nat) (v : Option Nat) : Heap :=
  match hGet h i with
  | some n => hSet h i (HNode.mk n.hdata n.hhgt n.hpar n.hlft v)
  | none => h

def hSetPar (h : Heap) (i : Nat) (v : Option Nat) : Heap :=
  match hGet h i with
  | some n => hSet h i (HNode.mk n.hdata n.hhgt v n.hlft n.hrgt)
  | none => h

def hSetHgt (h : Heap) (i : Nat) (v : Int) : Heap :=
  match hGet h i with
  | some n => hSet h i (HNode.mk n.hdata v n.hpar n.hlft n.hrgt)
  | none => h

/-- `_get_left_most_node`: `while (node && node->__left) node = node->__left`. -/
def hLeftmost : Nat → Heap → Option Nat → Option Nat
  | _, _, none => none
  | 0, _, some i => some i
  | f + 1, h, some i =>
      match hLft h i with
      | some j => hLeftmost f h (some j)
      | none => some i

/-- The climb loop of `_iterator::operator++`:
`while (p && current == p->__right) { current = p; p = p->__parent; }
current = p;`. -/
def hClimb : Nat → Heap → Nat → Option Nat → Option Nat
  | _, _, _, none => none
  | 0, _, _, some p => some p
  | f + 1, h, cur, some p =>
      if hRgt h p = some cur then hClimb f h p (hPar h p) else some p

/-- `_iterator::operator++`. -/
def hSucc (f : Nat) (h : Heap) (i : Nat) : Option Nat :=
  match hRgt h i with
  | some j => hLeftmost f h (some j)
  | none => hClimb f h i (hPar h i)

/-- Collect the data seen by iterating from a position. -/
def hIter : Nat → Heap → Option Nat → List Int
  | 0, _, _ => []
  | _, _, none => []
  | f + 1, h, some i => hData h i :: hIter f h (hSucc (f + 1) h i)

/-- The merge loop of the consuming `unite`, over node addresses: three-way
comparison of `(*it)->get_data()`, first tree wins ties, then the drains. -/
def hMerge : Nat → Heap → Option Nat → Option Nat → List Nat
  | 0, _, _, _ => []
  | _, _, none, none => []
  | f + 1, h, some i, none => i :: hMerge f h (hSucc (f + 1) h i) none
  | f + 1, h, none, some j => j :: hMerge f h none (hSucc (f + 1) h j)
  | f + 1, h, some i, some j =>
      if hData h i < hData h j then i :: hMerge f h (hSucc (f + 1) h i) (some j)
      else if hData h j < hData h i then j :: hMerge f h (some i) (hSucc (f + 1) h j)
      else i :: hMerge f h (hSucc (f + 1) h i) (hSucc (f + 1) h j)

/-- `_create_almost_full_tree_in_place` over the store.  Interior positions
reuse the node at `array[left_size]` and reassign its child links; size-one
subarrays execute `new _Node(*(node_ptr[0]))`, which invokes the implicit
COPY CONSTRUCTOR of `_Node` and so duplicates all five fields — including the
node's stale `__parent`, `__left` and `__right` pointers.  Returns the new
store, the next fresh address, and the subtree root. -/
def hCreate : Nat → Heap → Nat → List Nat → Heap × Nat × Option Nat
  | _, h, nx, [] => (h, nx, none)
  | 0, h, nx, _ :: _ => (h, nx, none)
  | f + 1, h, nx, i :: is =>
      if (i :: is).length = 1 then
        match hGet h i with
        | some n => ((nx, n) :: h, nx + 1, some nx)
        | none => (h, nx, none)
      else
        let ls := left_size (i :: is).length
        let root := (i :: is).getD ls 0
        let lres := hCreate f h nx ((i :: is).take ls)
        let h2 := hSetLft lres.1 root lres.2.2
        let h3 :=
          match lres.2.2 with
          | some lr => hSetPar h2 lr (some root)
          | none => h2
        let nh1 : Int :=
          match lres.2.2 with
          | some lr => hHgt h3 lr
          | none => 0
        let rres := hCreate f h3 lres.2.1 ((i :: is).drop (ls + 1))
        let h4 := hSetRgt rres.1 root rres.2.2
        let h5 :=
          match rres.2.2 with
          | some rr => hSetPar h4 rr (some root)
          | none => h4
        let nh2 : Int :=
          nh1 +
            match rres.2.2 with
            | some rr => hHgt h5 rr
            | none => 0
        (hSetHgt h5 root nh2, rres.2.1, some root)

/-- The consuming `unite(tree&&, tree&&)`: guard the empty case, merge the two
in-order address sequences via the private iterators, then build in place.
(The source also empties the two input containers, which does not affect the
produced structure.)  Returns the new store and the result's root. -/
def hUniteInPlace (f : Nat) (h : Heap) (nx sz1 sz2 : Nat) (r1 r2 : Option Nat) :
    Heap × Option Nat :=
  if sz1 + sz2 = 0 then (h, none)
  else
    let ids := hMerge f h (hLeftmost f h r1) (hLeftmost f h r2)
    let res := hCreate f h nx ids
    (res.1, res.2.2)

/-- Whether a store region rooted at an address has exactly the shape, data
and cached heights of a functional tree. -/
def hRepresents (h : Heap) : Option Nat → Node → Bool
  | none, Node.nil => true
  | some i, Node.node l k hh r =>
      match hGet h i with
      | some n =>
          decide (n.hdata = k) && decide (n.hhgt = hh) &&
            hRepresents h n.hlft l && hRepresents h n.hrgt r
      | none => false
  | _, _ => false

/-- Whether every parent pointer in a store region is coherent with the child
links (the expected parent of the root given first). -/
def hParentsOk (h : Heap) : Option Nat → Option Nat → Node → Bool
  | none, _, Node.nil => true
  | some i, pexp, Node.node l _ _ r =>
      match hGet h i with
      | some n =>
          decide (n.hpar = pexp) && hParentsOk h n.hlft (some i) l &&
            hParentsOk h n.hrgt (some i) r
      | none => false
  | _, _, _ => false

/-- Real height of a store region (fuelled; correct whenever the fuel exceeds
the region's depth). -/
def hRealH : Nat → Heap → Option Nat → Int
  | _, _, none => -1
  | 0, _, some _ => -1
  | f + 1, h, some i =>
      match hGet h i with
      | some n => 1 + max (hRealH f h n.hlft) (hRealH f h n.hrgt)
      | none => -1

/-- The AVL balance check on real heights over the store (fuelled). -/
def hBalanced : Nat → Heap → Option Nat → Bool
  | _, _, none => true
  | 0, _, some _ => true
  | f + 1, h, some i =>
      match hGet h i with
      | some n =>
          decide (hRealH f h n.hlft - hRealH f h n.hrgt ≤ 1) &&
            decide (hRealH f h n.hrgt - hRealH f h n.hlft ≤ 1) &&
            hBalanced f h n.hlft && hBalanced f h n.hrgt
      | none => true

/-- Run a sequence of inserts from the empty tree, `none` on any failure. -/
def insertSeq (l : List Int) : Option Tree :=
  l.foldlM (fun t x => (t.insert x).toOption) emptyT

/-! ## Concrete store scenarios for the consuming `unite` -/

/-- The functional tree built by inserting `1` then `3`. -/
def hT13 : Node := node nil 1 1 (node nil 3 0 nil)

/-- The functional tree built by inserting `2`. -/
def hT2n : Node := node nil 2 0 nil

/-- A store holding the two trees `{1, 3}` (root at address `0`) and `{2}`
(root at address `2`), exactly as the inserts lay them out. -/
def hC5heap : Heap :=
  [(0, HNode.mk 1 1 none none (some 1)),
   (1, HNode.mk 3 0 (some 0) none none),
   (2, HNode.mk 2 0 none none none)]

/-- The functional tree built by inserting `0` then `10`. -/
def hS1 : Node := node nil 0 1 (node nil 10 0 nil)

/-- The functional tree built by inserting `1, 2, 3, 4, 5, 20` in order. -/
def hS2 : Node :=
  node (node (node nil 1 0 nil) 2 1 (node nil 3 0 nil)) 4 2
    (node nil 5 1 (node nil 20 0 nil))

/-- A store holding the two trees `{0, 10}` (root at address `0`) and
`{1, 2, 3, 4, 5, 20}` (root at address `5`), as the inserts lay them out. -/
def hC1heap : Heap :=
  [(0, HNode.mk 0 1 none none (some 1)),
   (1, HNode.mk 10 0 (some 0) none none),
   (2, HNode.mk 1 0 (some 3) none none),
   (3, HNode.mk 2 1 (some 5) (some 2) (some 4)),
   (4, HNode.mk 3 0 (some 3) none none),
   (5, HNode.mk 4 2 none (some 3) (some 6)),
   (6, HNode.mk 5 1 (some 5) none (some 7)),
   (7, HNode.mk 20 0 (some 6) none none)]

/-- C5: the consuming `unite(tree&&, tree&&)` produces a tree whose iteration
is NOT the duplicate-free merge of the inputs.  With inputs `{1, 3}` and
`{2}`, laid out in the store exactly as the inserts build them (checked by
`hRepresents` / `hParentsOk` against the functional trees the model's inserts
produce), the merge of the in-order sequences is `[1, 2, 3]`, yet iterating
the united result yields `[1, 3]`: the size-one subarray case executes
`new _Node(*(node_ptr[0]))`, whose implicit copy constructor duplicates the
stale `__left`/`__right`/`__parent` pointers of the copied node, so the new
leaf for key `1` still points at the old node of key `3` and the iterator
escapes the new tree, skipping key `2`. -/
theorem consuming_unite_loses_keys :
    insertSeq [1, 3] = some (Tree.mk hT13 2 (some 1) (some 3)) ∧
    insertSeq [2] = some (Tree.mk hT2n 1 (some 2) (some 2)) ∧
    hRepresents hC5heap (some 0) hT13 = true ∧
    hParentsOk hC5heap (some 0) none hT13 = true ∧
    hRepresents hC5heap (some 2) hT2n = true ∧
    hParentsOk hC5heap (some 2) none hT2n = true ∧
    mergeDedup (inorder hT13) (inorder hT2n) = [1, 2, 3] ∧
    hIter 32 (hUniteInPlace 32 hC5heap 3 2 1 (some 0) (some 2)).1
      (hLeftmost 32 (hUniteInPlace 32 hC5heap 3 2 1 (some 0) (some 2)).1
        (hUniteInPlace 32 hC5heap 3 2 1 (some 0) (some 2)).2) = [1, 3] := by
  refine ⟨?_, ?_, ?_, ?_, ?_, ?_, ?_, ?_⟩ <;> decide

/-- C1 counterexample: a tree returned by the consuming `unite` violates the
real-height balance invariant.  With inputs `{0, 10}` and
`{1, 2, 3, 4, 5, 20}`, laid out in the store exactly as the inserts build
them, the united result contains copy-constructed leaves that retain stale
child pointers into the reused node graph; its real height is `6` for eight
keys and `hBalanced` fails (at the node holding key `1`, the left subtree —
through the stale pointer chain — has height `3` while the right child is
absent). -/
theorem consuming_unite_unbalanced_cex :
    insertSeq [0, 10] = some (Tree.mk hS1 2 (some 0) (some 10)) ∧
    insertSeq [1, 2, 3, 4, 5, 20] = some (Tree.mk hS2 6 (some 1) (some 20)) ∧
    hRepresents hC1heap (some 0) hS1 = true ∧
    hParentsOk hC1heap (some 0) none hS1 = true ∧
    hRepresents hC1heap (some 5) hS2 = true ∧
    hParentsOk hC1heap (some 5) none hS2 = true ∧
    hBalanced 64 (hUniteInPlace 64 hC1heap 8 2 6 (some 0) (some 5)).1
      (hUniteInPlace 64 hC1heap 8 2 6 (some 0) (some 5)).2 = false ∧
    hRealH 64 (hUniteInPlace 64 hC1heap 8 2 6 (some 0) (some 5)).1
      (hUniteInPlace 64 hC1heap 8 2 6 (some 0) (some 5)).2 = 6 := by
  refine ⟨?_, ?_, ?_, ?_, ?_, ?_, ?_, ?_⟩ <;> decide

/-- Witness for the insert contract at a concrete input: the singleton tree
`{1}` is well-formed and inserting `1` again reports `data_already_exists`. -/
theorem tree_insert_contract_witness :
    (Tree.mk (node nil 1 0 nil) 1 (some 1) (some 1)).insert 1 =
      Except.error Err.data_already_exists :=
  (tree_insert_contract (Tree.mk (node nil 1 0 nil) 1 (some 1) (some 1)) 1
      (by decide)).1 (by decide)

/-- Witness for the remove contract at a concrete input: removing `2` from the
well-formed singleton tree `{1}` reports `data_not_found`. -/
theorem tree_remove_contract_witness :
    (Tree.mk (node nil 1 0 nil) 1 (some 1) (some 1)).remove 2 =
      Except.error Err.data_not_found :=
  (tree_remove_contract (Tree.mk (node nil 1 0 nil) 1 (some 1) (some 1)) 2
      (by decide)).1 (by decide)

/-- Witness for the batch constructor at a concrete input: the nonempty
duplicate-free batch `[2, 1]` constructs a well-formed two-key tree. -/
theorem batch_ctor_spec_witness :
    ∃ t, treeFromList [2, 1] = Except.ok t ∧ WF t ∧
      t.size = ([2, 1] : List Int).length ∧
      ∀ y, y ∈ inorder t.root ↔ y ∈ ([2, 1] : List Int) :=
  (batch_ctor_spec [2, 1]).2 (by decide) (by decide)
